import Mathlib

/-!
# Verification of the Argparse-Interface mapping-and-state engine

Shallow embedding of the `argui` package (files `ParserMap.py`, `ParserGroup.py`,
`Interface.py`).  Python dictionaries are modelled as insertion-ordered association
lists (`Dict`), Python runtime values as the inductive `PyVal`, and Python
exceptions as `Except PyErr`.  Every definition mirrors the corresponding source
function; comments cite the Python lines being embedded.
-/

namespace ArgUI

/-- Python exceptions that the embedded code can raise. -/
inductive PyErr where
  | keyError
  | valueError
  | attributeError
  | typeError
deriving DecidableEq, Repr

/-- A Python `dict` with `String` keys: an insertion-ordered association list
with unique keys (all dictionaries in the embedded code are built from `[]`
through `dset`/`dpop`, which preserve key uniqueness). -/
abbrev Dict (α : Type) := List (String × α)

/-- Python `d[k]` read access / `k in d` test: `none` models a missing key. -/
def dget {α : Type} : Dict α → String → Option α
  | [], _ => none
  | (k, v) :: rest, key => if k = key then some v else dget rest key

/-- Python `d[k] = v`: updates the first binding of `k` in place (keeping its
position, as CPython dicts do) or appends a new binding at the end. -/
def dset {α : Type} : Dict α → String → α → Dict α
  | [], key, val => [(key, val)]
  | (k, v) :: rest, key, val =>
      if k = key then (k, val) :: rest else (k, v) :: dset rest key val

/-- Python `d.pop(k)` (no default) / `del d[k]`: `none` models the `KeyError`
raised when the key is absent. -/
def dpop {α : Type} : Dict α → String → Option (Dict α)
  | [], _ => none
  | (k, v) :: rest, key =>
      if k = key then some rest else (dpop rest key).map ((k, v) :: ·)

/-- In-place update `d[k] = f (d[k])` for a key that is known to be present
(the embedded code only uses this right after `dset d k _`; when the key is
absent this is a no-op, a case the source never reaches). -/
def dmodify {α : Type} : Dict α → String → (α → α) → Dict α
  | [], _, _ => []
  | (k, v) :: rest, key, f =>
      if k = key then (k, f v) :: rest else (k, v) :: dmodify rest key f

/-- Python `list.remove(x)`: removes the first element equal to `x`; `none`
models the `ValueError` raised when no element matches. -/
def pyListRemove {α : Type} [DecidableEq α] : List α → α → Option (List α)
  | [], _ => none
  | x :: rest, a =>
      if x = a then some rest else (pyListRemove rest a).map (x :: ·)

/-- A Python `float` value.  A parsed decimal literal is kept as the exact
fraction `num / den` it denotes (CPython rounds it to binary64, but the engine
never computes with or compares the number — it only stores it — so only parse
success/failure and the literal's components matter here). -/
inductive PFloat where
  | finite (num : Int) (den : Nat)
  | inf (neg : Bool)
  | nan
deriving DecidableEq, Repr

/-- A Python runtime value, covering every shape the engine stores in its
`_commands` dictionary. -/
inductive PyVal where
  | none
  | bool (b : Bool)
  | int (n : Int)
  | float (f : PFloat)
  | str (s : String)
  | list (xs : List PyVal)
  | dict (xs : List (String × PyVal))
deriving Repr

/-- Python truthiness, as used by `(action.default or None)`. -/
def pyTruthy : PyVal → Bool
  | .none => false
  | .bool b => b
  | .int n => n != 0
  | .float (.finite num _) => num != 0
  | .float _ => true
  | .str s => s != ""
  | .list xs => !xs.isEmpty
  | .dict xs => !xs.isEmpty

/-- Python `v or None` (`Interface.py` line 189). -/
def pyOrNone (v : PyVal) : PyVal := if pyTruthy v then v else .none

/-! ## Python numeric string conversion

`int(s)` and `float(s)` for a `str` argument: surrounding whitespace is
ignored, one optional sign is allowed, and single underscores may appear
between digits.  (CPython additionally accepts non-ASCII decimal digits;
the model covers the ASCII digits, which is the language relevant to the
claims about conversion success and failure.) -/

/-- Python whitespace, as stripped by `int(s)`/`float(s)` (ASCII portion). -/
def pySpace (c : Char) : Bool :=
  c = ' ' ∨ c = '\t' ∨ c = '\n' ∨ c = '\r' ∨ c = '\x0b' ∨ c = '\x0c'

/-- Strip leading and trailing whitespace. -/
def pyStrip (cs : List Char) : List Char :=
  ((cs.dropWhile pySpace).reverse.dropWhile pySpace).reverse

/-- Consume one optional leading sign; returns (isNegative, rest). -/
def stripSign : List Char → Bool × List Char
  | '+' :: rest => (false, rest)
  | '-' :: rest => (true, rest)
  | cs => (false, cs)

/-- Validate a nonempty digit run in which single underscores may appear only
between two digits; returns the digits with the underscores dropped. -/
def digitGroup : List Char → Option (List Char)
  | [] => Option.none
  | [c] => if c.isDigit then some [c] else Option.none
  | [_, '_'] => Option.none
  | c :: '_' :: d :: rest3 =>
      if c.isDigit && d.isDigit then (digitGroup (d :: rest3)).map (c :: ·)
      else Option.none
  | c :: rest =>
      if c.isDigit then (digitGroup rest).map (c :: ·) else Option.none

/-- A possibly-empty digit run with the same underscore rule. -/
def optDigitGroup : List Char → Option (List Char)
  | [] => some []
  | cs => digitGroup cs

/-- Numeric value of an ASCII digit list. -/
def digitsToNat (ds : List Char) : Nat :=
  ds.foldl (fun acc c => 10 * acc + (c.toNat - '0'.toNat)) 0

/-- Python `int(s)` on a `str`: `none` models the `ValueError`. -/
def pyIntOfString (s : String) : Option Int :=
  let cs := pyStrip s.data
  let (neg, cs) := stripSign cs
  (digitGroup cs).map fun ds =>
    let n : Int := digitsToNat ds
    if neg then -n else n

/-- Split a character list at the first `'e'`/`'E'` (exponent marker). -/
def splitExp : List Char → List Char × Option (List Char)
  | [] => ([], Option.none)
  | c :: rest =>
      if c = 'e' ∨ c = 'E' then ([], some rest)
      else
        let (m, e) := splitExp rest
        (c :: m, e)

/-- Split a character list at the first `'.'`. -/
def splitDot : List Char → List Char × Option (List Char)
  | [] => ([], Option.none)
  | c :: rest =>
      if c = '.' then ([], some rest)
      else
        let (m, e) := splitDot rest
        (c :: m, e)

/-- Parse the mantissa `digits[.digits]` (at least one digit overall);
returns (integer digits, fractional digits). -/
def parseMantissa (cs : List Char) : Option (List Char × List Char) :=
  match splitDot cs with
  | (ip, Option.none) => (digitGroup ip).map (fun ds => (ds, []))
  | (ip, some fp) => do
      let ids ← optDigitGroup ip
      let fds ← optDigitGroup fp
      if ids = [] ∧ fds = [] then Option.none else some (ids, fds)

/-- Python `float(s)` on a `str`: `none` models the `ValueError`.  Accepts an
optional sign, the case-insensitive specials `inf`/`infinity`/`nan`, or a
decimal mantissa with an optional signed exponent. -/
def pyFloatOfString (s : String) : Option PFloat :=
  let cs := pyStrip s.data
  let (neg, cs) := stripSign cs
  let lower := cs.map Char.toLower
  if lower = "inf".data ∨ lower = "infinity".data then some (.inf neg)
  else if lower = "nan".data then some .nan
  else
    let (mant, expPart) := splitExp cs
    do
      let (ids, fds) ← parseMantissa mant
      let expVal : Int ←
        match expPart with
        | Option.none => some 0
        | some ecs =>
            let (eneg, ecs) := stripSign ecs
            (digitGroup ecs).map fun eds =>
              let e : Int := digitsToNat eds
              if eneg then -e else e
      let m : Nat := digitsToNat (ids ++ fds)
      let num : Int :=
        if 0 ≤ expVal then (m : Int) * (10 : Int) ^ expVal.toNat else (m : Int)
      let den : Nat :=
        if 0 ≤ expVal then (10 : Nat) ^ fds.length
        else (10 : Nat) ^ (fds.length + (-expVal).toNat)
      some (.finite (if neg then -num else num) den)

/-- `Interface._typedStringToValue` (`Interface.py` lines 509-526): converts a
typed input string according to the Textual input type; the `try/except
ValueError` that returns `None` is the `Option.none` branch. -/
def typedStringToValue (s : String) (inputType : String) : PyVal :=
  if inputType = "integer" then
    match pyIntOfString s with
    | some n => .int n
    | Option.none => .none
  else if inputType = "number" then
    match pyFloatOfString s with
    | some f => .float f
    | Option.none => .none
  else
    .str s

/-! ## Group resolver (`ParserMap.py`)

An `argparse.Action` as seen by the resolver: only `dest`, `option_strings`
and `required` are read.  `parser._action_groups` is the ordered list of
`(group.title, group._group_actions)` pairs; `parser._mutually_exclusive_groups`
the ordered list of mutually exclusive groups (each with the `required` flag
passed to `add_mutually_exclusive_group`, which the resolver never reads). -/

structure GAction where
  dest : String
  optionStrings : List String
  required : Bool
deriving DecidableEq, Repr

/-- One entry of `parser._mutually_exclusive_groups`. -/
structure MutExGroup where
  required : Bool
  groupActions : List GAction
deriving DecidableEq, Repr

/-- The parser data the resolver reads. -/
structure GParser where
  actionGroups : List (String × List GAction)
  mutExGroups : List MutExGroup
deriving Repr

/-- `ParserMap.NO_TITLE_GROUP_FLAG`. -/
def NO_TITLE_GROUP_FLAG : String := "noTitle"

/-- First loop of `ParserMap.mapParserGroups` (`ParserMap.py` lines 49-59):
create one bucket per action group with its actions, and record per destination
which group title currently owns it (later writes overwrite earlier ones). -/
def mapRegularGroups (ags : List (String × List GAction)) :
    Dict (List GAction) × Dict String :=
  ags.foldl
    (fun st g =>
      g.2.foldl
        (fun st2 a => (dmodify st2.1 g.1 (· ++ [a]), dset st2.2 a.dest g.1))
        (dset st.1 g.1 [], st.2))
    ([], [])

/-- Per-member body of the second loop (`ParserMap.py` lines 66-75): a member
whose dest is owned by the `"options"` bucket is removed from `"options"` and
appended to the exclusive bucket `groupId`; other members are left alone. -/
def relocateMember (owned : Dict String) (groupId : String)
    (groups : Dict (List GAction)) (a : GAction) :
    Except PyErr (Dict (List GAction)) :=
  match dget owned a.dest with
  | Option.none => .ok groups
  | some owner =>
      if owner = "options" then
        match dget groups "options" with
        | Option.none => .error .keyError
        | some opts =>
            match pyListRemove opts a with
            | Option.none => .error .valueError
            | some opts' =>
                .ok (dmodify (dset groups "options" opts') groupId (· ++ [a]))
      else .ok groups

/-- One iteration of the second loop of `ParserMap.mapParserGroups`
(`ParserMap.py` lines 62-80): create the `noTitle_<uuid>` bucket, relocate
members owned by `"options"`, and delete the bucket again if it stayed empty. -/
def mapMutExGroup (owned : Dict String) (groups : Dict (List GAction))
    (me : MutExGroup) (uuid : String) : Except PyErr (Dict (List GAction)) := do
  let groupId := NO_TITLE_GROUP_FLAG ++ "_" ++ uuid
  let groups := dset groups groupId []
  let groups ← me.groupActions.foldlM (fun gs a => relocateMember owned groupId gs a) groups
  match dget groups groupId with
  | Option.none => .error .keyError
  | some bucket =>
      if bucket.length = 0 then
        match dpop groups groupId with
        | Option.none => .error .keyError
        | some gs => .ok gs
      else .ok groups

/-- `ParserMap.mapParserGroups` (`ParserMap.py` lines 35-82).  `uuids i` is the
`uuid.uuid4()` string drawn while processing the i-th mutually exclusive
group. -/
def mapParserGroups (parser : GParser) (uuids : Nat → String) :
    Except PyErr (Dict (List GAction)) := do
  let st := mapRegularGroups parser.actionGroups
  parser.mutExGroups.enum.foldlM
    (fun gs me => mapMutExGroup st.2 gs me.2 (uuids me.1)) st.1

/-- The inner required/optional pair (`{"required": [...], "optional": [...]}`,
keys `ParserMap.REQ_KEY_REQ` / `ParserMap.REQ_KEY_OPT`). -/
structure Buckets where
  required : List GAction
  optional : List GAction
deriving DecidableEq, Repr

/-- The membership test `action.required or (len(action.option_strings) == 0)`
(`ParserMap.py` line 125). -/
def reqPred (a : GAction) : Bool :=
  a.required || a.optionStrings.length == 0

/-- Per-group body of `ParserMap.deliniateMappedActions` (`ParserMap.py` lines
115-130): if the group's dest list equals the full dest list of some declared
mutually exclusive group, ALL members go into the required bucket; otherwise
members are partitioned by `reqPred`. -/
def deliniateGroup (mutExGroupDests : List (List String))
    (groupActions : List GAction) : Buckets :=
  let actionDests := groupActions.map (·.dest)
  if actionDests ∈ mutExGroupDests then
    ⟨groupActions, []⟩
  else
    groupActions.foldl
      (fun bk a =>
        if reqPred a then
          { bk with required := bk.required ++ [a] }
        else
          { bk with optional := bk.optional ++ [a] })
      ⟨[], []⟩

/-- The `mutExGroupDests` list computed at `ParserMap.py` lines 101-104: the
full dest list of every declared mutually exclusive group, in order. -/
def mutExDests (parser : GParser) : List (List String) :=
  parser.mutExGroups.map fun g => g.groupActions.map (·.dest)

/-- `ParserMap.deliniateMappedActions` (`ParserMap.py` lines 84-132). -/
def deliniateMappedActions (parser : GParser) (groupMap : Dict (List GAction)) :
    Dict Buckets :=
  groupMap.foldl (fun out g => dset out g.1 (deliniateGroup (mutExDests parser) g.2)) []

/-- `ParserMap.__init__` (`ParserMap.py` lines 20-32): the `groupMap`
attribute, `deliniateMappedActions(parser, mapParserGroups(parser))`. -/
def parserMapGroupMap (parser : GParser) (uuids : Nat → String) :
    Except PyErr (Dict Buckets) := do
  let gm ← mapParserGroups parser uuids
  .ok (deliniateMappedActions parser gm)

/-! ## Interface construction (`Interface._buildParserInterface`) -/

/-- A rendered UI element; only its existence matters to the claims. -/
inductive Widget where
  | label (text : String)
deriving Repr

/-- Attribute access `group.isUuidTitle` where `group` is a Python `str` (a
`groupMap` key): `str` defines no such attribute, so this raises
`AttributeError`. -/
def strGetAttrIsUuidTitle (_s : String) : Except PyErr PyVal :=
  .error .attributeError

/-- `Interface._buildParserInterface` (`Interface.py` lines 119-139).  The
loop `for groupIndex, group in enumerate(self._parserMap.groupMap)` iterates
the KEYS of the `groupMap` dict, so `group` is a title string, and the very
first statement of the loop body evaluates `group.isUuidTitle`. -/
def buildParserInterface : Dict Buckets → Except PyErr (List Widget)
  | [] => .ok []
  | (title, _) :: rest => do
      let _ ← strGetAttrIsUuidTitle title
      let ws ← buildParserInterface rest
      .ok ws

/-! ## Python `==` (used by `in` on lists and by the subparser-key comparison) -/

/-- Python `==` on floats: numeric equality of the denoted fractions; `nan`
compares unequal to everything, including itself. -/
def pfloatEq : PFloat → PFloat → Bool
  | .finite n1 d1, .finite n2 d2 => n1 * (d2 : Int) == n2 * (d1 : Int)
  | .inf a, .inf b => a == b
  | _, _ => false

mutual

/-- Python `==` on runtime values: values of different types compare unequal,
except across the numeric types (`True == 1`, `1 == 1.0`).  Python compares
dicts as unordered maps; this model compares them in order, which is
indistinguishable here because the engine only ever compares stored values
against `str` subparser keys, and any non-`str` compares unequal to those. -/
def pyEqB : PyVal → PyVal → Bool
  | .none, .none => true
  | .bool a, .bool b => a == b
  | .bool a, .int n => (if a then (1 : Int) else 0) == n
  | .int n, .bool a => n == (if a then (1 : Int) else 0)
  | .bool a, .float f => pfloatEq (.finite (if a then 1 else 0) 1) f
  | .float f, .bool a => pfloatEq f (.finite (if a then 1 else 0) 1)
  | .int a, .int b => a == b
  | .int n, .float f => pfloatEq (.finite n 1) f
  | .float f, .int n => pfloatEq f (.finite n 1)
  | .float f, .float g => pfloatEq f g
  | .str a, .str b => a == b
  | .list xs, .list ys => pyEqListB xs ys
  | .dict xs, .dict ys => pyEqDictB xs ys
  | _, _ => false

def pyEqListB : List PyVal → List PyVal → Bool
  | [], [] => true
  | x :: xs, y :: ys => pyEqB x y && pyEqListB xs ys
  | _, _ => false

def pyEqDictB : List (String × PyVal) → List (String × PyVal) → Bool
  | [], [] => true
  | (k1, v1) :: xs, (k2, v2) :: ys => k1 == k2 && pyEqB v1 v2 && pyEqDictB xs ys
  | _, _ => false

end

/-- Python `x in xs` for a list `xs`. -/
def pyIn (x : PyVal) (xs : List PyVal) : Bool := xs.any fun y => pyEqB x y

/-! ## The action tree seen by the Form State Engine

`Act.plain` covers every non-subparser action (`dest`, `option_strings`,
whether it is an `argparse._HelpAction`, and `default`); `Act.sub` is an
`argparse._SubParsersAction`, whose `choices` maps subcommand names to nested
parsers (its `option_strings` is `[]` and its `default` is `None`). -/

mutual
inductive Act where
  | plain (dest : String) (optionStrings : List String) (isHelp : Bool)
      (defaultVal : PyVal) : Act
  | sub (dest : String) (choices : List (String × ArgParser)) : Act
inductive ArgParser where
  | mk (actions : List Act) : ArgParser
end

/-- `action.dest`. -/
def Act.dest : Act → String
  | .plain d _ _ _ => d
  | .sub d _ => d

/-- `action.option_strings` (empty for a subparsers action, which is
positional). -/
def Act.optionStrings : Act → List String
  | .plain _ os _ _ => os
  | .sub _ _ => []

/-- `isinstance(action, argparse._HelpAction)`. -/
def Act.isHelp : Act → Bool
  | .plain _ _ h _ => h
  | .sub _ _ => false

/-- `action.default` (`None` for a subparsers action). -/
def Act.defaultVal : Act → PyVal
  | .plain _ _ _ dv => dv
  | .sub _ _ => .none

/-- `parser._actions`. -/
def ArgParser.actions : ArgParser → List Act
  | .mk as => as

/-- `ParserMap.excludeActionByDest` (`ParserMap.py` lines 148-157), for a
non-`None` `excludes` list.  The generator keeps `a` unless
`(a.option_strings in excludes) or (isinstance(a, argparse._HelpAction) and
keepHelp)`; note that the first test compares the whole `option_strings`
list against each element (a string) of `excludes`. -/
def excludeActionByDest (actions : List Act) (keepHelp : Bool)
    (excludes : List String) : List Act :=
  actions.filter fun a =>
    !(pyIn (.list (a.optionStrings.map .str)) (excludes.map .str) ||
      (a.isHelp && keepHelp))

/-- `Interface._onlyValidActions` (`Interface.py` lines 469-479):
`excludeActionByDest(actions, keepHelp=False, excludes=[self.guiFlag])`. -/
def onlyValidActions (guiFlag : String) (actions : List Act) : List Act :=
  excludeActionByDest actions false [guiFlag]

/-! ## Engine state and event handlers (`Interface.py`) -/

/-- The engine's mutable state: `_commands` (destination → current value) and
`_listsData` (list destination → the item ids of its
`{list item id : list item}` dict, in insertion order; the widget objects the
dict also stores play no role in the state claims). -/
structure AppState where
  commands : Dict PyVal
  listsData : Dict (List String)
deriving Repr

/-- Python `name.split("_")` character-level splitting (on every
underscore). -/
def splitOnUnderscore : List Char → List (List Char)
  | [] => [[]]
  | '_' :: rest => [] :: splitOnUnderscore rest
  | c :: rest =>
      match splitOnUnderscore rest with
      | [] => [[c]]
      | g :: gs => (c :: g) :: gs

/-- The two-variable unpacking `dest, id = name.split("_")`: raises
`ValueError` unless the split yields exactly two parts. -/
def pySplitUnder (s : String) : Except PyErr (String × String) :=
  match splitOnUnderscore s.data with
  | [a, b] => .ok (⟨a⟩, ⟨b⟩)
  | _ => .error .valueError

/-- Python `s.rsplit("-", 1)[-1]`: the part after the last dash, or the whole
string when there is no dash. -/
def pyRsplitDashLast (s : String) : String :=
  ⟨(s.data.reverse.takeWhile fun c => c != '-').reverse⟩

/-- The record step `self._commands[action.dest] = (action.default or None)` of
`Interface._buildActionInputs` (`Interface.py` lines 184-189), applied to the
given actions in build order. -/
def buildActionInputsSeed (st : AppState) (actions : List Act) : AppState :=
  actions.foldl
    (fun s a => { s with commands := dset s.commands a.dest (pyOrNone a.defaultVal) })
    st

/-- `Interface._buildListInput` (`Interface.py` lines 318-369), restricted to
its state effects: when the seeded command value is a list (pre-seeded
defaults), each element becomes one list item (`uuids i` is the uuid drawn for
the i-th element) and the command value becomes the id-keyed dict `cmdUpdate`;
otherwise the command value is left alone; either way the `_listsData` record
for the destination is created with the initial item ids. -/
def buildListInput (st : AppState) (dest : String) (uuids : Nat → String) :
    AppState :=
  match dget st.commands dest with
  | some (.list vs) =>
      let pairs := vs.enum.map fun iv => (uuids iv.1, iv.2)
      { commands := dset st.commands dest (.dict pairs),
        listsData := dset st.listsData dest (pairs.map (·.1)) }
  | _ => { st with listsData := dset st.listsData dest [] }

/-- `Interface.inputSwitchChanged` (`Interface.py` lines 529-535). -/
def inputSwitchChanged (st : AppState) (switchId : String) (value : Bool) :
    AppState :=
  { st with commands := dset st.commands switchId (.bool value) }

/-- `Interface.inputDropdownChanged` (`Interface.py` lines 537-543). -/
def inputDropdownChanged (st : AppState) (selectId : String) (value : PyVal) :
    AppState :=
  { st with commands := dset st.commands selectId value }

/-- `Interface.inputTypedChanged` (`Interface.py` lines 545-555): store
`_typedStringToValue(event.value, event.input.type)` under the input's id. -/
def inputTypedChanged (st : AppState) (inputId : String) (inputType : String)
    (value : String) : AppState :=
  { st with commands := dset st.commands inputId (typedStringToValue value inputType) }

/-- `Interface.inputTypedInListChanged` (`Interface.py` lines 557-572):
`dest, id = event.input.name.split("_")`, then
`self._commands[dest][id] = val`.  A missing `dest` raises `KeyError`; a
non-dict command value has no string-keyed item assignment (`TypeError`). -/
def inputTypedInListChanged (st : AppState) (inputName : String)
    (inputType : String) (value : String) : Except PyErr AppState := do
  let (dest, id) ← pySplitUnder inputName
  let val := typedStringToValue value inputType
  match dget st.commands dest with
  | Option.none => .error .keyError
  | some (.dict items) =>
      .ok { st with commands := dset st.commands dest (.dict (dset items id val)) }
  | some _ => .error .typeError

/-- `Interface._buildListInputItem` (`Interface.py` lines 371-420), restricted
to its command-data update: `self._commands[action.dest][id] = value` when the
current value is a dict, else `self._commands[action.dest] = {id: value}`.
Reading `self._commands[action.dest]` raises `KeyError` when absent. -/
def buildListInputItem (st : AppState) (dest : String) (id : String)
    (value : PyVal) : Except PyErr AppState :=
  match dget st.commands dest with
  | Option.none => .error .keyError
  | some (.dict d) =>
      .ok { st with commands := dset st.commands dest (.dict (dset d id value)) }
  | some _ =>
      .ok { st with commands := dset st.commands dest (.dict [(id, value)]) }

/-- Python dict insertion for a plain id-key set (`listItems[buttonId] =
listItem`): keep the position when present, else append. -/
def insertId (ids : List String) (id : String) : List String :=
  if ids.contains id then ids else ids ++ [id]

/-- `Interface.listAddButtonPressed` (`Interface.py` lines 574-595): unpack
`self._listsData[event.button.name]` (`KeyError` when absent), draw a fresh
uuid (`freshId`), create the item with value `None`, and record the item id. -/
def listAddButtonPressed (st : AppState) (buttonName : String)
    (freshId : String) : Except PyErr AppState := do
  match dget st.listsData buttonName with
  | Option.none => .error .keyError
  | some items => do
      let st' ← buildListInputItem st buttonName freshId .none
      .ok { st' with listsData := dset st'.listsData buttonName (insertId items freshId) }

/-- `Interface.listRemoveButtonPressed` (`Interface.py` lines 597-612):
`dest, id = event.button.name.split("_")`, then `self._commands[dest].pop(id)`
and `self._listsData[dest][1].pop(id)`.  `dict.pop` without a default raises
`KeyError` for an unknown id. -/
def listRemoveButtonPressed (st : AppState) (buttonName : String) :
    Except PyErr AppState := do
  let (dest, id) ← pySplitUnder buttonName
  match dget st.commands dest with
  | Option.none => .error .keyError
  | some (.dict d) =>
      match dpop d id with
      | Option.none => .error .keyError
      | some d' =>
          match dget st.listsData dest with
          | Option.none => .error .keyError
          | some ids =>
              match pyListRemove ids id with
              | Option.none => .error .keyError
              | some ids' =>
                  .ok { commands := dset st.commands dest (.dict d'),
                        listsData := dset st.listsData dest ids' }
  | some (.list _) => .error .typeError
  | some _ => .error .attributeError

/-- `Interface.tabActivated` (`Interface.py` lines 614-623):
`dest, tabId = event.tab.id.rsplit("-", 1)[-1].split("_")`, then
`self._commands[dest] = tabId`. -/
def tabActivated (st : AppState) (tabWidgetId : String) :
    Except PyErr AppState := do
  let (dest, tabId) ← pySplitUnder (pyRsplitDashLast tabWidgetId)
  .ok { st with commands := dset st.commands dest (.str tabId) }

/-- Filtering a list never increases its `sizeOf` (termination measure for the
recursive destination walk below). -/
theorem sizeOf_filter_le {α : Type} [SizeOf α] (p : α → Bool) (l : List α) :
    sizeOf (l.filter p) ≤ sizeOf l := by
  induction l with
  | nil => simp
  | cons x xs ih =>
      by_cases h : p x <;> simp [List.filter, h] <;> omega

theorem sizeOf_onlyValidActions_le (guiFlag : String) (actions : List Act) :
    sizeOf (onlyValidActions guiFlag actions) ≤ sizeOf actions :=
  sizeOf_filter_le _ actions

mutual

/-- `Interface._getValidDests` (`Interface.py` lines 481-507): walk the
filtered actions of `parser`; a plain action contributes its dest; a
subparsers action whose dest is in `_commands` contributes, for every choice
whose key equals the stored value, its own dest followed by the recursive walk
of that nested parser. -/
def validDestsParser (cmds : Dict PyVal) (guiFlag : String) :
    ArgParser → List String
  | .mk actions => validDestsActions cmds guiFlag (onlyValidActions guiFlag actions)
termination_by p => sizeOf p
decreasing_by
  simp only [ArgParser.mk.sizeOf_spec]
  exact lt_of_le_of_lt (sizeOf_onlyValidActions_le _ _) (by omega)

/-- The per-action loop of `Interface._getValidDests`. -/
def validDestsActions (cmds : Dict PyVal) (guiFlag : String) :
    List Act → List String
  | [] => []
  | a :: rest =>
      (match a with
       | .plain d _ _ _ => [d]
       | .sub d choices =>
           match dget cmds d with
           | Option.none => []
           | some v => validDestsChoices cmds guiFlag d v choices)
      ++ validDestsActions cmds guiFlag rest
termination_by l => sizeOf l
decreasing_by
  all_goals simp
  all_goals omega

/-- The per-subparser loop of `Interface._getValidDests`
(`if self._commands[action.dest] == subParserKey`). -/
def validDestsChoices (cmds : Dict PyVal) (guiFlag : String) (d : String)
    (v : PyVal) : List (String × ArgParser) → List String
  | [] => []
  | (key, subParser) :: rest =>
      (if pyEqB v (.str key) then d :: validDestsParser cmds guiFlag subParser
       else [])
      ++ validDestsChoices cmds guiFlag d v rest
termination_by l => sizeOf l
decreasing_by
  all_goals simp
  all_goals omega

end

/-- `Interface.getArgs` (`Interface.py` lines 444-466): restrict `_commands`
to the currently valid destinations, then flatten every `_listsData`
destination whose surviving value is a dict into the plain list of its values
(in dict order).  `argparse.Namespace(**filteredCmds)` holds exactly this
mapping, one attribute per key. -/
def getArgs (st : AppState) (parser : ArgParser) (guiFlag : String) :
    Dict PyVal :=
  let validDests := validDestsParser st.commands guiFlag parser
  let filteredCmds := st.commands.filter fun kv => validDests.contains kv.1
  st.listsData.foldl
    (fun f kv =>
      match dget f kv.1 with
      | some (.dict d) => dset f kv.1 (.list (d.map (·.2)))
      | _ => f)
    filteredCmds

/-! ## Basic lemmas about the dictionary model -/

theorem dget_dset_self {α : Type} (d : Dict α) (k : String) (v : α) :
    dget (dset d k v) k = some v := by
  induction d with
  | nil => simp [dget, dset]
  | cons kv rest ih =>
      by_cases h : kv.1 = k <;> simp [dget, dset, h, ih]

theorem dget_dset_ne {α : Type} (d : Dict α) (k k' : String) (v : α)
    (h : k ≠ k') : dget (dset d k v) k' = dget d k' := by
  induction d with
  | nil => simp [dget, dset, h]
  | cons kv rest ih =>
      by_cases hk : kv.1 = k
      · simp [dget, dset, hk, h]
      · by_cases hk' : kv.1 = k' <;>
          simp [dget, dset, hk, hk', ih, Ne.symm h]

theorem dpop_eq_none_iff {α : Type} (d : Dict α) (k : String) :
    dpop d k = Option.none ↔ dget d k = Option.none := by
  induction d with
  | nil => simp [dpop, dget]
  | cons kv rest ih =>
      by_cases h : kv.1 = k <;> simp [dpop, dget, h, ih, Option.map_eq_none']

/-- `dget` through a key-filtered dictionary. -/
theorem dget_filter_key {α : Type} (d : Dict α) (p : String → Bool) (k : String) :
    dget (d.filter fun kv => p kv.1) k = if p k then dget d k else Option.none := by
  induction d with
  | nil => simp [dget]
  | cons kv rest ih =>
      by_cases hp : p kv.1
      · by_cases hk : kv.1 = k
        · subst hk
          simp [List.filter, hp, dget, ih]
        · simp [List.filter, hp, dget, hk, ih]
      · by_cases hk : kv.1 = k
        · subst hk
          simp [List.filter, hp, dget, ih, hp]
        · simp [List.filter, hp, dget, hk, ih]

/-! ## Unfolding lemmas for the recursive destination walk

(`validDestsParser` and friends are compiled by well-founded recursion, so
their defining equations are exposed as rewrite lemmas.) -/

theorem validDestsParser_mk (cmds : Dict PyVal) (g : String) (as : List Act) :
    validDestsParser cmds g (.mk as) =
      validDestsActions cmds g (onlyValidActions g as) := by
  rw [validDestsParser]

theorem validDestsActions_nil (cmds : Dict PyVal) (g : String) :
    validDestsActions cmds g [] = [] := by
  rw [validDestsActions]

theorem validDestsActions_plain (cmds : Dict PyVal) (g : String) (d : String)
    (os : List String) (h : Bool) (dv : PyVal) (rest : List Act) :
    validDestsActions cmds g (.plain d os h dv :: rest) =
      d :: validDestsActions cmds g rest := by
  rw [validDestsActions]
  rfl

theorem validDestsActions_sub (cmds : Dict PyVal) (g : String) (d : String)
    (choices : List (String × ArgParser)) (rest : List Act) :
    validDestsActions cmds g (.sub d choices :: rest) =
      (match dget cmds d with
       | Option.none => []
       | some v => validDestsChoices cmds g d v choices)
      ++ validDestsActions cmds g rest := by
  rw [validDestsActions]

theorem validDestsChoices_nil (cmds : Dict PyVal) (g : String) (d : String)
    (v : PyVal) : validDestsChoices cmds g d v [] = [] := by
  rw [validDestsChoices]

theorem validDestsChoices_cons (cmds : Dict PyVal) (g : String) (d : String)
    (v : PyVal) (key : String) (subParser : ArgParser)
    (rest : List (String × ArgParser)) :
    validDestsChoices cmds g d v ((key, subParser) :: rest) =
      (if pyEqB v (.str key) then d :: validDestsParser cmds g subParser
       else [])
      ++ validDestsChoices cmds g d v rest := by
  rw [validDestsChoices]

/-! ## Closed forms for the deliniation stage -/

/-- Setting a fresh key appends the binding at the end. -/
theorem dset_append {α : Type} (d : Dict α) (k : String) (v : α)
    (h : ∀ kv ∈ d, kv.1 ≠ k) : dset d k v = d ++ [(k, v)] := by
  induction d with
  | nil => simp [dset]
  | cons kv rest ih =>
      have hk : kv.1 ≠ k := h kv (by simp)
      simp [dset, hk]
      exact ih fun x hx => h x (by simp [hx])

/-- Folding `dset` over entries with fresh, pairwise distinct keys appends the
transformed entries in order. -/
theorem foldl_dset_map {α β : Type} (f : α → β) (gm : List (String × α))
    (acc : List (String × β)) (hnd : (gm.map Prod.fst).Nodup)
    (hfresh : ∀ g ∈ gm, ∀ kv ∈ acc, kv.1 ≠ g.1) :
    gm.foldl (fun out g => dset out g.1 (f g.2)) acc =
      acc ++ gm.map fun g => (g.1, f g.2) := by
  induction gm generalizing acc with
  | nil => simp
  | cons g rest ih =>
      have hstep : dset acc g.1 (f g.2) = acc ++ [(g.1, f g.2)] :=
        dset_append acc g.1 (f g.2) fun kv hkv => hfresh g (by simp) kv hkv
      have hnd' : (rest.map Prod.fst).Nodup := by
        simpa using hnd.of_cons
      have hfresh' : ∀ g' ∈ rest, ∀ kv ∈ acc ++ [(g.1, f g.2)], kv.1 ≠ g'.1 := by
        intro g' hg' kv hkv
        rcases List.mem_append.mp hkv with hkv | hkv
        · exact hfresh g' (by simp [hg']) kv hkv
        · simp at hkv
          subst hkv
          intro hcontra
          have : g.1 ∈ rest.map Prod.fst := by
            simp only [List.mem_map]
            exact ⟨g', hg', hcontra.symm⟩
          exact (List.nodup_cons.mp (by simpa using hnd)).1 this
      calc (g :: rest).foldl (fun out g => dset out g.1 (f g.2)) acc
          = rest.foldl (fun out g => dset out g.1 (f g.2)) (acc ++ [(g.1, f g.2)]) := by
            simp [hstep]
        _ = (acc ++ [(g.1, f g.2)]) ++ rest.map (fun g => (g.1, f g.2)) :=
            ih (acc ++ [(g.1, f g.2)]) hnd' hfresh'
        _ = acc ++ (g :: rest).map (fun g => (g.1, f g.2)) := by simp

/-- Under unique group titles, `deliniateMappedActions` is a per-entry map. -/
theorem deliniate_eq_map (parser : GParser) (gm : Dict (List GAction))
    (hnd : (gm.map Prod.fst).Nodup) :
    deliniateMappedActions parser gm =
      gm.map fun g => (g.1, deliniateGroup (mutExDests parser) g.2) := by
  unfold deliniateMappedActions
  simpa using foldl_dset_map (deliniateGroup (mutExDests parser)) gm [] hnd (by simp)

/-- `dget` through a value-mapping of the entries. -/
theorem dget_map_value {α β : Type} (f : α → β) (d : Dict α) (t : String) :
    dget (d.map fun g => (g.1, f g.2)) t = (dget d t).map f := by
  induction d with
  | nil => simp [dget]
  | cons kv rest ih =>
      by_cases h : kv.1 = t <;> simp [dget, h, ih]

/-- A group whose dest list coincides with a declared mutually exclusive
group's full dest list puts ALL members in the required bucket. -/
theorem deliniateGroup_of_mem (dests : List (List String))
    (acts : List GAction) (h : acts.map (·.dest) ∈ dests) :
    deliniateGroup dests acts = ⟨acts, []⟩ := by
  simp [deliniateGroup, h]

/-- Helper: the partition fold, started from arbitrary buckets. -/
theorem deliniate_partition_fold (acts : List GAction) (r o : List GAction) :
    acts.foldl
      (fun (bk : Buckets) a =>
        if reqPred a then
          { bk with required := bk.required ++ [a] }
        else
          { bk with optional := bk.optional ++ [a] })
      ⟨r, o⟩ =
      ⟨r ++ acts.filter reqPred, o ++ acts.filter fun a => !reqPred a⟩ := by
  induction acts generalizing r o with
  | nil => simp
  | cons a rest ih =>
      by_cases h : reqPred a
      · simp only [List.foldl_cons, if_pos h]
        rw [ih]
        simp [List.filter, h]
      · simp only [List.foldl_cons, if_neg h]
        rw [ih]
        simp [List.filter, h]

/-- A group whose dest list does NOT coincide with any declared mutually
exclusive group's dest list is partitioned by the per-member test. -/
theorem deliniateGroup_of_not_mem (dests : List (List String))
    (acts : List GAction) (h : acts.map (·.dest) ∉ dests) :
    deliniateGroup dests acts =
      ⟨acts.filter reqPred, acts.filter fun a => !reqPred a⟩ := by
  simp only [deliniateGroup, if_neg h]
  simpa using deliniate_partition_fold acts [] []

/-! ## Concrete parsers used by counterexamples and witnesses -/

/-- The auto-added help action (`-h`, `--help`; not required). -/
def cexHelp : GAction := ⟨"help", ["-h", "--help"], false⟩

/-- An optional flagged action `-a` (not required). -/
def cexA : GAction := ⟨"alpha", ["-a"], false⟩

/-- An optional flagged action `-b` (not required). -/
def cexB : GAction := ⟨"beta", ["-b"], false⟩

/-- A fixed uuid supply. -/
def cexUuids : Nat → String := fun _ => "u0"

/-- A parser with a mutually exclusive group declared directly on the parser
(`add_mutually_exclusive_group(required=False)` with members `-a`, `-b`, which
argparse places in the default `options` group). -/
def c2Parser : GParser :=
  ⟨[("positional arguments", []), ("options", [cexHelp, cexA, cexB])],
   [⟨false, [cexA, cexB]⟩]⟩

/-- A parser where the mutually exclusive group `{-a, -b}` is nested inside the
user-declared argument group `"g"` (so its members are owned by `"g"`, not by
`"options"`). -/
def c8Parser : GParser :=
  ⟨[("positional arguments", []), ("options", [cexHelp]), ("g", [cexA, cexB])],
   [⟨false, [cexA, cexB]⟩]⟩

/-! ## Claim C2 -/

/-- `c2Parser` with the single mutually exclusive group declared
`required=True` instead of `required=False` (used to show the flag is never
read). -/
def c2ParserReq : GParser :=
  ⟨[("positional arguments", []), ("options", [cexHelp, cexA, cexB])],
   [⟨true, [cexA, cexB]⟩]⟩

/-- C2 counterexample: in `c2Parser` the mutually exclusive group is declared
with `required=False`, so the claim demands that both buckets of the exclusive
group stay empty; the resolver instead puts ALL members into the required
bucket — its buckets for the exclusive group are `⟨[-a, -b], []⟩`, not
`⟨[], []⟩`. -/
theorem c2_counterexample :
    parserMapGroupMap c2Parser cexUuids =
      .ok [("positional arguments", ⟨[], []⟩), ("options", ⟨[], [cexHelp]⟩),
           ("noTitle_u0", ⟨[cexA, cexB], []⟩)]
    ∧ (∀ me ∈ c2Parser.mutExGroups, me.required = false)
    ∧ (⟨[cexA, cexB], []⟩ : Buckets) ≠ (⟨[], []⟩ : Buckets) :=
  ⟨rfl, by decide, by decide⟩

/-- C2 (amended): `deliniateMappedActions` never reads the mutually exclusive
groups' `required` flags — its output is invariant under any change of those
flags — and for every group whose member dest list equals the full dest list
of some declared mutually exclusive group, the required bucket is set to ALL
members and the optional bucket is left empty (the member-level `required`
flags are ignored on this path too). -/
theorem c2_amended :
    (∀ (p q : GParser) (gm : Dict (List GAction)),
        p.mutExGroups.map (·.groupActions)
          = q.mutExGroups.map (·.groupActions) →
        deliniateMappedActions p gm = deliniateMappedActions q gm)
    ∧ (∀ (parser : GParser) (gm : Dict (List GAction)),
        (gm.map Prod.fst).Nodup →
        ∀ (t : String) (acts : List GAction),
        dget gm t = some acts →
        acts.map (·.dest) ∈ mutExDests parser →
        dget (deliniateMappedActions parser gm) t = some ⟨acts, []⟩) := by
  constructor
  · intro p q gm h
    have hmx : mutExDests p = mutExDests q := by
      unfold mutExDests
      have h2 := congrArg
        (List.map fun l : List GAction => l.map (·.dest)) h
      simpa [List.map_map, Function.comp] using h2
    unfold deliniateMappedActions
    rw [hmx]
  · intro parser gm hnd t acts hget hex
    rw [deliniate_eq_map parser gm hnd, dget_map_value, hget]
    simp [deliniateGroup_of_mem _ _ hex]

/-- Witness for `c2_amended`: flipping the exclusive group's `required` flag
changes nothing, and the concrete exclusive bucket of `c2Parser` goes whole
into required. -/
theorem c2_amended_witness :
    deliniateMappedActions c2Parser [("noTitle_u0", [cexA, cexB])]
      = deliniateMappedActions c2ParserReq [("noTitle_u0", [cexA, cexB])]
    ∧ dget (deliniateMappedActions c2Parser [("noTitle_u0", [cexA, cexB])])
        "noTitle_u0" = some ⟨[cexA, cexB], []⟩ :=
  ⟨c2_amended.1 c2Parser c2ParserReq [("noTitle_u0", [cexA, cexB])] rfl,
   c2_amended.2 c2Parser [("noTitle_u0", [cexA, cexB])] (by simp) "noTitle_u0"
     [cexA, cexB] rfl (by simp [mutExDests, c2Parser, cexA, cexB])⟩

/-! ## Claim C8 -/

/-- C8 counterexample: in `c8Parser` the group `"g"` is a declared,
non-exclusive argument group, and its member `-b` is neither required nor
positional, so the claim places `-b` in the optional bucket; but because the
dest list of `"g"` happens to equal the full dest list of the (nested)
mutually exclusive group, the resolver routes the whole group through the
all-into-required branch, leaving the optional bucket empty. -/
theorem c8_counterexample :
    parserMapGroupMap c8Parser cexUuids =
      .ok [("positional arguments", ⟨[], []⟩), ("options", ⟨[], [cexHelp]⟩),
           ("g", ⟨[cexA, cexB], []⟩)]
    ∧ ("g", [cexA, cexB]) ∈ c8Parser.actionGroups
    ∧ cexB ∈ ([cexA, cexB] : List GAction)
    ∧ reqPred cexB = false :=
  ⟨rfl, by simp [c8Parser], by simp, rfl⟩

/-- C8 (amended): for every resolver-output group whose member dest list does
NOT equal the full dest list of any declared mutually exclusive group, a member
is placed in the required bucket iff it is declared required or has no
invocation flag, otherwise in the optional bucket; the two buckets are
disjoint and their union is the group's full member set. -/
theorem c8_amended (parser : GParser) (gm : Dict (List GAction))
    (hnd : (gm.map Prod.fst).Nodup) (t : String) (acts : List GAction)
    (hget : dget gm t = some acts)
    (hnotex : acts.map (·.dest) ∉ mutExDests parser) :
    ∃ bk, dget (deliniateMappedActions parser gm) t = some bk
      ∧ (∀ a, a ∈ bk.required ↔ a ∈ acts ∧ reqPred a = true)
      ∧ (∀ a, a ∈ bk.optional ↔ a ∈ acts ∧ reqPred a = false)
      ∧ (∀ a, ¬(a ∈ bk.required ∧ a ∈ bk.optional))
      ∧ (∀ a, a ∈ acts ↔ a ∈ bk.required ∨ a ∈ bk.optional) := by
  refine ⟨⟨acts.filter reqPred, acts.filter fun a => !reqPred a⟩, ?_, ?_, ?_, ?_, ?_⟩
  · rw [deliniate_eq_map parser gm hnd, dget_map_value, hget]
    simp [deliniateGroup_of_not_mem _ _ hnotex]
  · intro a
    simp [List.mem_filter]
  · intro a
    simp [List.mem_filter]
  · intro a
    simp only [List.mem_filter]
    rintro ⟨⟨_, h1⟩, _, h2⟩
    simp [h1] at h2
  · intro a
    simp only [List.mem_filter]
    constructor
    · intro ha
      by_cases h : reqPred a
      · exact Or.inl ⟨ha, h⟩
      · exact Or.inr ⟨ha, by simpa using h⟩
    · rintro (⟨ha, _⟩ | ⟨ha, _⟩) <;> exact ha

/-- Witness for `c8_amended` at the `"options"` group of `c2Parser`. -/
theorem c8_amended_witness :
    ∃ bk, dget (deliniateMappedActions c2Parser [("options", [cexHelp])])
        "options" = some bk
      ∧ (∀ a, a ∈ bk.required ↔ a ∈ [cexHelp] ∧ reqPred a = true)
      ∧ (∀ a, a ∈ bk.optional ↔ a ∈ [cexHelp] ∧ reqPred a = false)
      ∧ (∀ a, ¬(a ∈ bk.required ∧ a ∈ bk.optional))
      ∧ (∀ a, a ∈ [cexHelp] ↔ a ∈ bk.required ∨ a ∈ bk.optional) :=
  c8_amended c2Parser [("options", [cexHelp])] (by simp) "options" [cexHelp]
    rfl (by simp [mutExDests, c2Parser, cexHelp, cexA, cexB])

/-! ## Dictionary lemmas for the relocation analysis -/

theorem dget_append_left {α : Type} {X : Dict α} (Y : Dict α) {k : String}
    {v : α} (h : dget X k = some v) : dget (X ++ Y) k = some v := by
  induction X with
  | nil => simp [dget] at h
  | cons kv rest ih =>
      by_cases hk : kv.1 = k <;> simp [dget, hk] at h ⊢
      · exact h
      · exact ih h

theorem dget_append_right {α : Type} {X : Dict α} (Y : Dict α) {k : String}
    (h : dget X k = Option.none) : dget (X ++ Y) k = dget Y k := by
  induction X with
  | nil => simp
  | cons kv rest ih =>
      by_cases hk : kv.1 = k <;> simp [dget, hk] at h ⊢
      exact ih h

/-- Splitting key-nodup at a cons cell. -/
theorem keys_nodup_cons {α : Type} {kv : String × α} {rest : Dict α} :
    ((kv :: rest).map Prod.fst).Nodup ↔
      kv.1 ∉ rest.map Prod.fst ∧ (rest.map Prod.fst).Nodup := by
  rw [List.map_cons, List.nodup_cons]

theorem dget_not_mem_keys {α : Type} {X : Dict α} {k : String}
    (h : k ∉ X.map Prod.fst) : dget X k = Option.none := by
  induction X with
  | nil => rfl
  | cons kv rest ih =>
      rw [List.map_cons, List.mem_cons] at h
      push_neg at h
      simp only [dget]
      rw [if_neg fun he => h.1 he.symm]
      exact ih h.2

theorem dset_append_of_mem {α : Type} {X : Dict α} (Y : Dict α) {k : String}
    (v : α) (h : dget X k ≠ Option.none) :
    dset (X ++ Y) k v = dset X k v ++ Y := by
  induction X with
  | nil => simp [dget] at h
  | cons kv rest ih =>
      by_cases hk : kv.1 = k
      · simp [dset, hk]
      · simp [dget, hk] at h
        simp [dset, hk, ih h]

theorem dmodify_last {α : Type} {X : Dict α} {k : String} (v : α)
    (f : α → α) (h : ∀ kv ∈ X, kv.1 ≠ k) :
    dmodify (X ++ [(k, v)]) k f = X ++ [(k, f v)] := by
  induction X with
  | nil => simp [dmodify]
  | cons kv rest ih =>
      have hk : kv.1 ≠ k := h kv (by simp)
      simp [dmodify, hk]
      exact ih fun x hx => h x (by simp [hx])

theorem dpop_last {α : Type} {X : Dict α} {k : String} (v : α)
    (h : ∀ kv ∈ X, kv.1 ≠ k) : dpop (X ++ [(k, v)]) k = some X := by
  induction X with
  | nil => simp [dpop]
  | cons kv rest ih =>
      have hk : kv.1 ≠ k := h kv (by simp)
      simp [dpop, hk]
      exact ih fun x hx => h x (by simp [hx])

theorem dget_last {α : Type} {X : Dict α} {k : String} (v : α)
    (h : ∀ kv ∈ X, kv.1 ≠ k) : dget (X ++ [(k, v)]) k = some v := by
  have hx : dget X k = Option.none :=
    dget_not_mem_keys (by
      intro hmem
      rcases List.mem_map.mp hmem with ⟨kv, hkv, hk⟩
      exact h kv hkv hk)
  rw [dget_append_right _ hx]
  simp [dget]

/-- Two bindings of the same key in a key-nodup association list coincide. -/
theorem mem_key_unique {α : Type} {l : Dict α} {k : String} {v1 v2 : α}
    (h1 : (k, v1) ∈ l) (h2 : (k, v2) ∈ l)
    (hnd : (l.map Prod.fst).Nodup) : v1 = v2 := by
  induction l with
  | nil => simp at h1
  | cons kv rest ih =>
      have hnd' := keys_nodup_cons.mp hnd
      rcases List.mem_cons.mp h1 with h1 | h1 <;>
        rcases List.mem_cons.mp h2 with h2 | h2
      · rw [← h1] at h2
        exact ((Prod.mk.injEq _ _ _ _).mp h2.symm).2
      · exact absurd (List.mem_map.mpr ⟨(k, v2), h2, by rw [← h1]⟩) hnd'.1
      · exact absurd (List.mem_map.mpr ⟨(k, v1), h1, by rw [← h2]⟩) hnd'.1
      · exact ih h1 h2 hnd'.2

/-- `dget` of a binding present in a key-nodup association list. -/
theorem dget_of_mem_nodup {α : Type} {l : Dict α} {k : String} {v : α}
    (h : (k, v) ∈ l) (hnd : (l.map Prod.fst).Nodup) : dget l k = some v := by
  induction l with
  | nil => simp at h
  | cons kv rest ih =>
      have hnd' := keys_nodup_cons.mp hnd
      rcases List.mem_cons.mp h with h | h
      · simp [dget, ← h]
      · have hk : kv.1 ≠ k := by
          intro he
          exact hnd'.1 (List.mem_map.mpr ⟨(k, v), h, he.symm⟩)
        simp [dget, hk, ih h hnd'.2]

/-- `dget` through a key-dependent value mapping. -/
theorem dget_map_keyfun {α β : Type} (f : String → α → β) (d : Dict α)
    (t : String) :
    dget (d.map fun g => (g.1, f g.1 g.2)) t = (dget d t).map (f t) := by
  induction d with
  | nil => simp [dget]
  | cons kv rest ih =>
      by_cases h : kv.1 = t <;> simp [dget, h, ih]

/-- `dset` of a present key through a key-dependent value mapping
(unique keys). -/
theorem dset_map_keyfun {α β : Type} (f : String → α → β) (d : Dict α)
    (t : String) (v : β) (hnd : (d.map Prod.fst).Nodup)
    (hmem : t ∈ d.map Prod.fst) :
    dset (d.map fun g => (g.1, f g.1 g.2)) t v =
      d.map fun g => (g.1, if g.1 = t then v else f g.1 g.2) := by
  induction d with
  | nil => simp at hmem
  | cons kv rest ih =>
      have hnd' := keys_nodup_cons.mp hnd
      by_cases h : kv.1 = t
      · subst h
        simp [dset]
        intro a b hab
        have hne : a ≠ kv.1 := by
          intro he
          exact hnd'.1 (List.mem_map.mpr ⟨(a, b), hab, he⟩)
        simp [hne]
      · have hmem' : t ∈ rest.map Prod.fst := by
          rw [List.map_cons, List.mem_cons] at hmem
          rcases hmem with hmem | hmem
          · exact absurd hmem.symm h
          · exact hmem
        simp only [List.map_cons, dset, if_neg h]
        rw [ih hnd'.2 hmem']

/-! ## Closed form of the first `mapParserGroups` loop -/

/-- The `ownedDests` record produced by the first loop of
`ParserMap.mapParserGroups` (`ParserMap.py` lines 50-59). -/
def ownedDestsOf (ags : List (String × List GAction)) : Dict String :=
  (mapRegularGroups ags).2

/-- The `(dest, owning title)` writes performed by the first loop, in order. -/
def writesOf (ags : List (String × List GAction)) : List (String × String) :=
  (ags.map fun g => g.2.map fun a => (a.dest, g.1)).flatten

/-- Replaying a write list over a dictionary. -/
def writesFold (ws : List (String × String)) (init : Dict String) : Dict String :=
  ws.foldl (fun ow w => dset ow w.1 w.2) init

theorem phase1_inner (acts : List GAction) (accG : Dict (List GAction))
    (t : String) (cur : List GAction) (accO : Dict String)
    (h : ∀ kv ∈ accG, kv.1 ≠ t) :
    acts.foldl (fun st2 a => (dmodify st2.1 t (· ++ [a]), dset st2.2 a.dest t))
      (accG ++ [(t, cur)], accO)
    = (accG ++ [(t, cur ++ acts)],
       writesFold (acts.map fun a => (a.dest, t)) accO) := by
  induction acts generalizing cur accO with
  | nil => simp [writesFold]
  | cons a rest ih =>
      simp only [List.foldl_cons]
      rw [show (dmodify (accG ++ [(t, cur)]) t (· ++ [a]), dset accO a.dest t)
            = (accG ++ [(t, cur ++ [a])], dset accO a.dest t) from by
            rw [dmodify_last cur (· ++ [a]) h]]
      rw [ih (cur ++ [a]) (dset accO a.dest t)]
      simp [writesFold]

theorem mapRegularGroups_go (ags : List (String × List GAction))
    (accG : Dict (List GAction)) (accO : Dict String)
    (hnd : (ags.map Prod.fst).Nodup)
    (hfresh : ∀ g ∈ ags, ∀ kv ∈ accG, kv.1 ≠ g.1) :
    ags.foldl
      (fun st g =>
        g.2.foldl
          (fun st2 a => (dmodify st2.1 g.1 (· ++ [a]), dset st2.2 a.dest g.1))
          (dset st.1 g.1 [], st.2))
      (accG, accO)
    = (accG ++ ags, writesFold (writesOf ags) accO) := by
  induction ags generalizing accG accO with
  | nil => simp [writesOf, writesFold]
  | cons g rest ih =>
      have hnd' := keys_nodup_cons.mp hnd
      have hstep : dset accG g.1 [] = accG ++ [(g.1, [])] :=
        dset_append accG g.1 [] fun kv hkv => hfresh g (by simp) kv hkv
      simp only [List.foldl_cons, hstep]
      rw [phase1_inner g.2 accG g.1 [] accO fun kv hkv => hfresh g (by simp) kv hkv]
      rw [List.nil_append]
      rw [ih (accG ++ [(g.1, g.2)]) (writesFold (g.2.map fun a => (a.dest, g.1)) accO)
            hnd'.2 ?hfresh]
      case hfresh =>
        intro g' hg' kv hkv
        rcases List.mem_append.mp hkv with hkv | hkv
        · exact hfresh g' (by simp [hg']) kv hkv
        · simp at hkv
          rw [hkv]
          intro he
          exact hnd'.1 (List.mem_map.mpr ⟨g', hg', he.symm⟩)
      simp [writesOf, writesFold, List.foldl_append]

/-- Closed form of the first loop: the groups dict is the action-group list
itself, and `ownedDests` is the replay of all `(dest, title)` writes. -/
theorem mapRegularGroups_spec (ags : List (String × List GAction))
    (hnd : (ags.map Prod.fst).Nodup) :
    mapRegularGroups ags = (ags, writesFold (writesOf ags) []) := by
  unfold mapRegularGroups
  simpa using mapRegularGroups_go ags [] [] hnd (by simp)

theorem dget_writesFold_not_mem {d : String} (ws : List (String × String))
    (init : Dict String) (h : d ∉ ws.map Prod.fst) :
    dget (writesFold ws init) d = dget init d := by
  induction ws generalizing init with
  | nil => rfl
  | cons w rest ih =>
      rw [List.map_cons, List.mem_cons] at h
      push_neg at h
      show dget (writesFold rest (dset init w.1 w.2)) d = dget init d
      rw [ih (dset init w.1 w.2) h.2, dget_dset_ne init w.1 d w.2 fun he => h.1 he.symm]

theorem dget_writesFold_mem {d t : String} (ws : List (String × String))
    (init : Dict String) (hnd : (ws.map Prod.fst).Nodup)
    (h : (d, t) ∈ ws) : dget (writesFold ws init) d = some t := by
  induction ws generalizing init with
  | nil => simp at h
  | cons w rest ih =>
      have hnd' := keys_nodup_cons.mp hnd
      rcases List.mem_cons.mp h with h | h
      · rw [← h] at hnd' ⊢
        show dget (writesFold rest (dset init d t)) d = some t
        rw [dget_writesFold_not_mem rest _ hnd'.1, dget_dset_self]
      · exact ih _ hnd'.2 h

theorem dget_writesFold_inv {d t : String} (ws : List (String × String))
    (init : Dict String) (h : dget (writesFold ws init) d = some t) :
    (d, t) ∈ ws ∨ dget init d = some t := by
  induction ws generalizing init with
  | nil => exact Or.inr h
  | cons w rest ih =>
      rcases ih (dset init w.1 w.2) h with hmem | hinit
      · exact Or.inl (by simp [hmem])
      · by_cases hw : w.1 = d
        · subst hw
          rw [dget_dset_self] at hinit
          exact Or.inl (by simp [← Option.some.injEq _ _ |>.mp hinit])
        · rw [dget_dset_ne init w.1 d w.2 hw] at hinit
          exact Or.inr hinit

/-- Membership in the write list. -/
theorem mem_writesOf {ags : List (String × List GAction)} {d t : String} :
    (d, t) ∈ writesOf ags ↔ ∃ g ∈ ags, g.1 = t ∧ ∃ a ∈ g.2, a.dest = d := by
  constructor
  · intro h
    rcases List.mem_flatten.mp h with ⟨s, hs, hmem⟩
    rcases List.mem_map.mp hs with ⟨g, hg, rfl⟩
    rcases List.mem_map.mp hmem with ⟨a, ha, hpair⟩
    rcases Prod.mk.injEq _ _ _ _ |>.mp hpair with ⟨h1, h2⟩
    exact ⟨g, hg, h2, a, ha, h1⟩
  · rintro ⟨g, hg, rfl, a, ha, rfl⟩
    exact List.mem_flatten.mpr
      ⟨g.2.map fun a => (a.dest, g.1), List.mem_map.mpr ⟨g, hg, rfl⟩,
       List.mem_map.mpr ⟨a, ha, rfl⟩⟩

/-- The write keys are exactly the flattened dest lists. -/
theorem writesOf_keys (ags : List (String × List GAction)) :
    (writesOf ags).map Prod.fst = (ags.map fun g => g.2.map (·.dest)).flatten := by
  simp only [writesOf, List.map_flatten, List.map_map]
  congr 1
  apply List.map_congr_left
  intro g _
  simp [Function.comp]

/-! ## Closed form of the second `mapParserGroups` loop -/

/-- The members of a mutually exclusive group that the second loop relocates:
those whose dest is currently recorded as owned by the `"options"` bucket. -/
def relocOf (owned : Dict String) (me : MutExGroup) : List GAction :=
  me.groupActions.filter fun a => dget owned a.dest == some "options"

/-- Whether some group in `mes` relocates `a`. -/
def relocatedBy (owned : Dict String) (mes : List MutExGroup) (a : GAction) :
    Bool :=
  mes.any fun me => (relocOf owned me).contains a

/-- The generated `noTitle_<uuid>` title of the i-th mutually exclusive
group. -/
def gidFor (uuids : Nat → String) (i : Nat) : String :=
  NO_TITLE_GROUP_FLAG ++ "_" ++ uuids i

/-- The action-group dict after removing the already-relocated members (`R`)
from the `"options"` bucket. -/
def mappedWith (ags : List (String × List GAction)) (R : GAction → Bool) :
    Dict (List GAction) :=
  ags.map fun g => (g.1, if g.1 = "options" then g.2.filter (fun a => !R a) else g.2)

/-- The exclusive buckets appended by the second loop, numbering from `n0` and
skipping groups with no relocated member. -/
def bucketsFrom (owned : Dict String) (uuids : Nat → String) (n0 : Nat)
    (mes : List MutExGroup) : Dict (List GAction) :=
  (mes.enumFrom n0).filterMap fun ime =>
    if (relocOf owned ime.2).length = 0 then Option.none
    else some (gidFor uuids ime.1, relocOf owned ime.2)

theorem mappedWith_congr {ags : List (String × List GAction)}
    (R1 R2 : GAction → Bool) (h : ∀ a, R1 a = R2 a) :
    mappedWith ags R1 = mappedWith ags R2 := by
  unfold mappedWith
  apply List.map_congr_left
  intro g _
  by_cases hg : g.1 = "options" <;> simp only [hg, if_true, if_false, reduceIte]
  · congr 1
    exact List.filter_congr fun a _ => by rw [h a]

theorem mappedWith_false (ags : List (String × List GAction)) :
    mappedWith ags (fun _ => false) = ags := by
  unfold mappedWith
  have h : ∀ g ∈ ags,
      (g.1, if g.1 = "options" then g.2.filter (fun _ => !false) else g.2) = g := by
    intro g _
    by_cases hg : g.1 = "options"
    · rw [if_pos hg]
      simp only [Bool.not_false, List.filter_true]
    · rw [if_neg hg]
  rw [List.map_congr_left h]
  simp

theorem mappedWith_keys (ags : List (String × List GAction))
    (R : GAction → Bool) :
    (mappedWith ags R).map Prod.fst = ags.map Prod.fst := by
  unfold mappedWith
  rw [List.map_map]
  rfl

theorem dget_mappedWith_options {ags : List (String × List GAction)}
    {opts : List GAction} (R : GAction → Bool)
    (hT : (ags.map Prod.fst).Nodup) (hopts : ("options", opts) ∈ ags) :
    dget (mappedWith ags R) "options" = some (opts.filter fun a => !R a) := by
  induction ags with
  | nil => simp at hopts
  | cons kv rest ih =>
      have hT' := keys_nodup_cons.mp hT
      rcases List.mem_cons.mp hopts with h | h
      · rw [← h]
        simp [mappedWith, dget]
      · have hne : kv.1 ≠ "options" := by
          intro he
          exact hT'.1 (List.mem_map.mpr ⟨("options", opts), h, he.symm⟩)
        simp only [mappedWith, List.map_cons, dget, if_neg hne]
        exact ih hT'.2 h

theorem pyListRemove_of_mem {α : Type} [DecidableEq α] {l : List α} {a : α}
    (h : a ∈ l) : pyListRemove l a = some (l.erase a) := by
  induction l with
  | nil => simp at h
  | cons x rest ih =>
      by_cases hx : x = a
      · subst hx
        simp [pyListRemove, List.erase_cons_head]
      · have hmem : a ∈ rest := by
          rcases List.mem_cons.mp h with h | h
          · exact absurd h.symm hx
          · exact h
        rw [List.erase_cons_tail (by simp [hx])]
        simp [pyListRemove, hx, ih hmem]

theorem filter_erase_combine {opts : List GAction} (hnd : opts.Nodup)
    (R : GAction → Bool) (a : GAction) :
    (opts.filter fun x => !R x).erase a =
      opts.filter fun x => !(R x || x == a) := by
  rw [(hnd.filter _).erase_eq_filter, List.filter_filter]
  apply List.filter_congr
  intro x _
  cases hR : R x <;> cases hxa : x == a <;> simp_all [beq_iff_eq]

theorem dset_mappedWith_options {ags : List (String × List GAction)}
    {opts : List GAction} (R R' : GAction → Bool)
    (hT : (ags.map Prod.fst).Nodup) (hopts : ("options", opts) ∈ ags) :
    dset (mappedWith ags R) "options" (opts.filter fun x => !R' x)
      = mappedWith ags R' := by
  induction ags with
  | nil => simp at hopts
  | cons kv rest ih =>
      have hT' := keys_nodup_cons.mp hT
      rcases List.mem_cons.mp hopts with h | h
      · have hkv : kv.1 = "options" := by rw [← h]
        have hv : kv.2 = opts := by rw [← h]
        simp only [mappedWith, List.map_cons, dset, hkv, hv, if_pos rfl, if_true,
          eq_self_iff_true]
        congr 1
        apply List.map_congr_left
        intro g hg
        have hne : g.1 ≠ "options" := by
          intro he
          exact hT'.1 (List.mem_map.mpr ⟨g, hg, by rw [he, hkv]⟩)
        simp [hne]
      · have hne : kv.1 ≠ "options" := by
          intro he
          exact hT'.1 (List.mem_map.mpr ⟨("options", opts), h, he.symm⟩)
        simp only [mappedWith, List.map_cons, dset, if_neg hne]
        rw [show (List.map (fun g =>
              (g.1, if g.1 = "options" then g.2.filter (fun a => !R a) else g.2)) rest)
            = mappedWith rest R from rfl]
        rw [ih hT'.2 h]
        rfl

theorem phase2_members
    (ags : List (String × List GAction)) (owned : Dict String)
    (hT : (ags.map Prod.fst).Nodup)
    (ms : List GAction) (R : GAction → Bool) (bks : Dict (List GAction))
    (gid : String) (cur : List GAction)
    (hg1 : gid ∉ ags.map Prod.fst)
    (hg2 : ∀ kv ∈ bks, kv.1 ≠ gid)
    (hmem : ∀ a ∈ ms, dget owned a.dest = some "options" →
       ∃ opts, ("options", opts) ∈ ags ∧ a ∈ opts ∧ opts.Nodup ∧ R a = false)
    (hdest : (ms.map (·.dest)).Nodup) :
    ms.foldlM (fun gs a => relocateMember owned gid gs a)
      (mappedWith ags R ++ bks ++ [(gid, cur)])
    = .ok (mappedWith ags
             (fun x => R x ||
               (ms.filter fun y => dget owned y.dest == some "options").contains x)
           ++ bks
           ++ [(gid, cur ++ ms.filter fun y => dget owned y.dest == some "options")]) := by
  induction ms generalizing R cur with
  | nil =>
      simp only [List.foldlM_nil, List.filter_nil, List.append_nil]
      rw [mappedWith_congr (fun x => R x || ([] : List GAction).contains x) R
            fun x => by simp]
      rfl
  | cons a rest ih =>
      rw [List.map_cons, List.nodup_cons] at hdest
      cases hOwn : dget owned a.dest with
      | none =>
          have hstep : relocateMember owned gid
              (mappedWith ags R ++ bks ++ [(gid, cur)]) a
              = .ok (mappedWith ags R ++ bks ++ [(gid, cur)]) := by
            simp [relocateMember, hOwn]
          have hfil : (List.filter (fun y => dget owned y.dest == some "options")
              (a :: rest)) = rest.filter fun y => dget owned y.dest == some "options" := by
            simp [List.filter_cons, hOwn]
          rw [List.foldlM_cons, hstep]
          show rest.foldlM (fun gs a => relocateMember owned gid gs a) _ = _
          rw [hfil]
          exact ih R cur (fun a' ha' => hmem a' (by simp [ha'])) hdest.2
      | some t =>
          by_cases ht : t = "options"
          · subst ht
            obtain ⟨opts, hopts, hain, hoptnd, hRa⟩ := hmem a (by simp) hOwn
            have hgetOpts : dget (mappedWith ags R ++ (bks ++ [(gid, cur)])) "options"
                = some (opts.filter fun x => !R x) :=
              dget_append_left _ (dget_mappedWith_options R hT hopts)
            have hinFil : a ∈ opts.filter fun x => !R x :=
              List.mem_filter.mpr ⟨hain, by simp [hRa]⟩
            have hremove : pyListRemove (opts.filter fun x => !R x) a
                = some (opts.filter fun x => !(R x || x == a)) := by
              rw [pyListRemove_of_mem hinFil, filter_erase_combine hoptnd]
            have hdsetStep : dset (mappedWith ags R ++ (bks ++ [(gid, cur)]))
                "options" (opts.filter fun x => !(R x || x == a))
                = mappedWith ags (fun x => R x || x == a) ++ (bks ++ [(gid, cur)]) := by
              rw [dset_append_of_mem _ _
                    (by rw [dget_mappedWith_options R hT hopts]; simp)]
              rw [dset_mappedWith_options R (fun x => R x || x == a) hT hopts]
            have hmodStep : dmodify
                (mappedWith ags (fun x => R x || x == a) ++ (bks ++ [(gid, cur)]))
                gid (· ++ [a])
                = mappedWith ags (fun x => R x || x == a) ++ (bks ++ [(gid, cur ++ [a])]) := by
              rw [← List.append_assoc, ← List.append_assoc]
              rw [dmodify_last cur (· ++ [a]) ?fresh]
              case fresh =>
                intro kv hkv
                rcases List.mem_append.mp hkv with hkv | hkv
                · intro he
                  apply hg1
                  rw [← mappedWith_keys ags (fun x => R x || x == a)]
                  exact List.mem_map.mpr ⟨kv, hkv, he⟩
                · exact hg2 kv hkv
            have hstep : relocateMember owned gid
                (mappedWith ags R ++ bks ++ [(gid, cur)]) a
                = .ok (mappedWith ags (fun x => R x || x == a)
                       ++ bks ++ [(gid, cur ++ [a])]) := by
              simp only [relocateMember, hOwn, reduceIte, List.append_assoc]
              rw [hgetOpts]
              simp only [hremove]
              rw [hdsetStep, hmodStep, ← List.append_assoc]
            rw [List.foldlM_cons, hstep]
            show rest.foldlM (fun gs a => relocateMember owned gid gs a) _ = _
            rw [ih (fun x => R x || x == a) (cur ++ [a]) ?hmem' hdest.2]
            case hmem' =>
              intro a' ha' hOwn'
              obtain ⟨opts', h1, h2, h3, hR'⟩ := hmem a' (by simp [ha']) hOwn'
              refine ⟨opts', h1, h2, h3, ?_⟩
              have hne : a' ≠ a := by
                intro he
                apply hdest.1
                exact List.mem_map.mpr ⟨a', ha', by rw [he]⟩
              simp [hR', hne]
            have hfil : (List.filter (fun y => dget owned y.dest == some "options")
                (a :: rest)) = a :: rest.filter fun y => dget owned y.dest == some "options" := by
              simp [List.filter_cons, hOwn]
            rw [hfil]
            rw [mappedWith_congr
                  (fun x => (R x || x == a) ||
                    (rest.filter fun y => dget owned y.dest == some "options").contains x)
                  (fun x => R x ||
                    (a :: (rest.filter fun y => dget owned y.dest == some "options")).contains x)
                  fun x => by
                    by_cases hxa : x = a
                    · simp [List.contains_cons, Bool.or_assoc, hxa]
                    · have hb : (x == a) = false := by
                        exact decide_eq_false hxa
                      simp [List.contains_cons, Bool.or_assoc, hxa, hb]]
            simp
          · have hstep : relocateMember owned gid
                (mappedWith ags R ++ bks ++ [(gid, cur)]) a
                = .ok (mappedWith ags R ++ bks ++ [(gid, cur)]) := by
              simp [relocateMember, hOwn, ht]
            have hfil : (List.filter (fun y => dget owned y.dest == some "options")
                (a :: rest)) = rest.filter fun y => dget owned y.dest == some "options" := by
              simp [List.filter_cons, hOwn, ht]
            rw [List.foldlM_cons, hstep]
            show rest.foldlM (fun gs a => relocateMember owned gid gs a) _ = _
            rw [hfil]
            exact ih R cur (fun a' ha' => hmem a' (by simp [ha'])) hdest.2

theorem phase2_groups
    (ags : List (String × List GAction)) (owned : Dict String)
    (hT : (ags.map Prod.fst).Nodup)
    (mes : List MutExGroup) (uuids : Nat → String) (n0 : Nat)
    (R : GAction → Bool) (bks : Dict (List GAction))
    (hf1 : ∀ j, j < mes.length → gidFor uuids (n0 + j) ∉ ags.map Prod.fst)
    (hf2 : ∀ j, j < mes.length → ∀ kv ∈ bks, kv.1 ≠ gidFor uuids (n0 + j))
    (hf3 : ∀ j j', j < j' → j' < mes.length →
        gidFor uuids (n0 + j) ≠ gidFor uuids (n0 + j'))
    (hmem : ∀ me ∈ mes, ∀ a ∈ me.groupActions,
        dget owned a.dest = some "options" →
        ∃ opts, ("options", opts) ∈ ags ∧ a ∈ opts ∧ opts.Nodup ∧ R a = false)
    (hgd : ∀ me ∈ mes, (me.groupActions.map (·.dest)).Nodup)
    (hpd : mes.Pairwise fun me1 me2 =>
        ∀ a1 ∈ me1.groupActions, ∀ a2 ∈ me2.groupActions, a1.dest ≠ a2.dest) :
    (mes.enumFrom n0).foldlM
      (fun gs ime => mapMutExGroup owned gs ime.2 (uuids ime.1))
      (mappedWith ags R ++ bks)
    = .ok (mappedWith ags (fun x => R x || relocatedBy owned mes x)
           ++ (bks ++ bucketsFrom owned uuids n0 mes)) := by
  induction mes generalizing n0 R bks with
  | nil =>
      show pure (mappedWith ags R ++ bks) = _
      rw [mappedWith_congr (fun x => R x || relocatedBy owned [] x) R
            fun x => by simp [relocatedBy]]
      rw [show bucketsFrom owned uuids n0 [] = [] from rfl]
      rw [List.append_nil]
      rfl
  | cons me rest ih =>
      rw [List.enumFrom_cons, List.foldlM_cons]
      have hgid0 : gidFor uuids n0 ∉ ags.map Prod.fst := by
        have h := hf1 0 (by simp)
        simpa using h
      have hgid0b : ∀ kv ∈ bks, kv.1 ≠ gidFor uuids n0 := by
        intro kv hkv
        have h := hf2 0 (by simp) kv hkv
        simpa using h
      have hds : dset (mappedWith ags R ++ bks) (gidFor uuids n0) []
          = mappedWith ags R ++ bks ++ [(gidFor uuids n0, [])] :=
        dset_append _ _ _ (by
          intro kv hkv
          rcases List.mem_append.mp hkv with hkv | hkv
          · intro he
            apply hgid0
            rw [← mappedWith_keys ags R]
            exact List.mem_map.mpr ⟨kv, hkv, he⟩
          · exact hgid0b kv hkv)
      have hmembers := phase2_members ags owned hT me.groupActions R bks
        (gidFor uuids n0) [] hgid0 hgid0b
        (fun a ha hOwn => hmem me (by simp) a ha hOwn)
        (hgd me (by simp))
      rw [List.nil_append] at hmembers
      have hfreshGS : ∀ kv ∈ mappedWith ags
          (fun x => R x || (relocOf owned me).contains x) ++ bks,
          kv.1 ≠ gidFor uuids n0 := by
        intro kv hkv
        rcases List.mem_append.mp hkv with hkv | hkv
        · intro he
          apply hgid0
          rw [← mappedWith_keys ags fun x => R x || (relocOf owned me).contains x]
          exact List.mem_map.mpr ⟨kv, hkv, he⟩
        · exact hgid0b kv hkv
      have hgrp : mapMutExGroup owned (mappedWith ags R ++ bks) me (uuids n0)
          = (if (relocOf owned me).length = 0
             then .ok (mappedWith ags
                 (fun x => R x || (relocOf owned me).contains x) ++ bks)
             else .ok (mappedWith ags
                 (fun x => R x || (relocOf owned me).contains x)
               ++ bks ++ [(gidFor uuids n0, relocOf owned me)])) := by
        simp only [mapMutExGroup]
        rw [show NO_TITLE_GROUP_FLAG ++ "_" ++ uuids n0 = gidFor uuids n0 from rfl]
        rw [hds, hmembers]
        show (match dget (mappedWith ags
            (fun x => R x || (relocOf owned me).contains x) ++ bks
            ++ [(gidFor uuids n0, relocOf owned me)]) (gidFor uuids n0) with
          | Option.none => Except.error PyErr.keyError
          | some bucket =>
              if bucket.length = 0 then
                match dpop (mappedWith ags
                    (fun x => R x || (relocOf owned me).contains x) ++ bks
                    ++ [(gidFor uuids n0, relocOf owned me)]) (gidFor uuids n0) with
                | Option.none => Except.error PyErr.keyError
                | some gs => Except.ok gs
              else Except.ok (mappedWith ags
                  (fun x => R x || (relocOf owned me).contains x) ++ bks
                  ++ [(gidFor uuids n0, relocOf owned me)])) = _
        rw [dget_last (relocOf owned me) hfreshGS]
        show (if (relocOf owned me).length = 0 then
                match dpop (mappedWith ags
                    (fun x => R x || (relocOf owned me).contains x) ++ bks
                    ++ [(gidFor uuids n0, relocOf owned me)]) (gidFor uuids n0) with
                | Option.none => Except.error PyErr.keyError
                | some gs => Except.ok gs
              else Except.ok (mappedWith ags
                  (fun x => R x || (relocOf owned me).contains x) ++ bks
                  ++ [(gidFor uuids n0, relocOf owned me)])) = _
        by_cases hlen : (relocOf owned me).length = 0
        · rw [if_pos hlen, if_pos hlen]
          rw [dpop_last (relocOf owned me) hfreshGS]
        · rw [if_neg hlen, if_neg hlen]
      rw [hgrp]
      by_cases hlen : (relocOf owned me).length = 0
      · have hrel : relocOf owned me = [] := List.length_eq_zero.mp hlen
        rw [if_pos hlen]
        show (List.enumFrom (n0 + 1) rest).foldlM
            (fun gs ime => mapMutExGroup owned gs ime.2 (uuids ime.1)) _ = _
        rw [mappedWith_congr (fun x => R x || (relocOf owned me).contains x) R
              fun x => by simp [hrel]]
        rw [ih (n0 + 1) R bks ?f1 ?f2 ?f3 ?mem ?gd ?pd]
        case f1 =>
          intro j hj
          have h := hf1 (j + 1) (by simpa using Nat.succ_lt_succ hj)
          rw [show n0 + (j + 1) = n0 + 1 + j by omega] at h
          exact h
        case f2 =>
          intro j hj kv hkv
          have h := hf2 (j + 1) (by simpa using Nat.succ_lt_succ hj) kv hkv
          rw [show n0 + (j + 1) = n0 + 1 + j by omega] at h
          exact h
        case f3 =>
          intro j j' hjj hj'
          have h := hf3 (j + 1) (j' + 1) (by omega)
            (by simpa using Nat.succ_lt_succ hj')
          rw [show n0 + (j + 1) = n0 + 1 + j by omega,
              show n0 + (j' + 1) = n0 + 1 + j' by omega] at h
          exact h
        case mem => exact fun me' hme' => hmem me' (by simp [hme'])
        case gd => exact fun me' hme' => hgd me' (by simp [hme'])
        case pd => exact hpd.of_cons
        rw [mappedWith_congr (fun x => R x || relocatedBy owned rest x)
              (fun x => R x || relocatedBy owned (me :: rest) x)
              fun x => by simp [relocatedBy, hrel]]
        rw [show bucketsFrom owned uuids n0 (me :: rest)
              = bucketsFrom owned uuids (n0 + 1) rest from by
            simp [bucketsFrom, List.enumFrom_cons, List.filterMap_cons, hrel]]
      · rw [if_neg hlen]
        show (List.enumFrom (n0 + 1) rest).foldlM
            (fun gs ime => mapMutExGroup owned gs ime.2 (uuids ime.1)) _ = _
        rw [List.append_assoc]
        rw [ih (n0 + 1) (fun x => R x || (relocOf owned me).contains x)
              (bks ++ [(gidFor uuids n0, relocOf owned me)]) ?f1 ?f2 ?f3 ?mem ?gd ?pd]
        case f1 =>
          intro j hj
          have h := hf1 (j + 1) (by simpa using Nat.succ_lt_succ hj)
          rw [show n0 + (j + 1) = n0 + 1 + j by omega] at h
          exact h
        case f2 =>
          intro j hj kv hkv
          rcases List.mem_append.mp hkv with hkv | hkv
          · have h := hf2 (j + 1) (by simpa using Nat.succ_lt_succ hj) kv hkv
            rw [show n0 + (j + 1) = n0 + 1 + j by omega] at h
            exact h
          · simp at hkv
            rw [hkv]
            have h := hf3 0 (j + 1) (by omega) (by simpa using Nat.succ_lt_succ hj)
            rw [show n0 + 0 = n0 by omega,
                show n0 + (j + 1) = n0 + 1 + j by omega] at h
            exact h
        case f3 =>
          intro j j' hjj hj'
          have h := hf3 (j + 1) (j' + 1) (by omega)
            (by simpa using Nat.succ_lt_succ hj')
          rw [show n0 + (j + 1) = n0 + 1 + j by omega,
              show n0 + (j' + 1) = n0 + 1 + j' by omega] at h
          exact h
        case mem =>
          intro me' hme' a ha hOwn
          obtain ⟨opts, h1, h2, h3, hR⟩ := hmem me' (by simp [hme']) a ha hOwn
          refine ⟨opts, h1, h2, h3, ?_⟩
          have hnin : a ∉ relocOf owned me := by
            intro hin
            have hinme : a ∈ me.groupActions := (List.mem_filter.mp hin).1
            exact (List.pairwise_cons.mp hpd).1 me' hme' a hinme a ha rfl
          simp [hR, hnin]
        case gd => exact fun me' hme' => hgd me' (by simp [hme'])
        case pd => exact hpd.of_cons
        rw [mappedWith_congr
              (fun x => (R x || (relocOf owned me).contains x) || relocatedBy owned rest x)
              (fun x => R x || relocatedBy owned (me :: rest) x)
              fun x => by simp [relocatedBy, Bool.or_assoc]]
        have hrel : relocOf owned me ≠ [] := by
          intro h
          exact hlen (by simp [h])
        rw [show bucketsFrom owned uuids n0 (me :: rest)
              = (gidFor uuids n0, relocOf owned me) :: bucketsFrom owned uuids (n0 + 1) rest
            from by simp [bucketsFrom, List.enumFrom_cons, List.filterMap_cons, hrel]]
        rw [show bks ++ [(gidFor uuids n0, relocOf owned me)]
              ++ bucketsFrom owned uuids (n0 + 1) rest
            = bks ++ ((gidFor uuids n0, relocOf owned me)
                :: bucketsFrom owned uuids (n0 + 1) rest) from by simp]

/-- Every key of `bucketsFrom` is a generated title. -/
theorem bucketsFrom_keys_sub (owned : Dict String) (uuids : Nat → String)
    (n0 : Nat) (mes : List MutExGroup) :
    ∀ k ∈ (bucketsFrom owned uuids n0 mes).map Prod.fst,
      ∃ j, j < mes.length ∧ k = gidFor uuids (n0 + j) := by
  induction mes generalizing n0 with
  | nil =>
      intro k hk
      simp [bucketsFrom] at hk
  | cons me rest ih =>
      intro k hk
      by_cases hrel : relocOf owned me = []
      · rw [show bucketsFrom owned uuids n0 (me :: rest)
              = bucketsFrom owned uuids (n0 + 1) rest from by
            simp [bucketsFrom, List.enumFrom_cons, List.filterMap_cons, hrel]] at hk
        obtain ⟨j, hj, hk⟩ := ih (n0 + 1) k hk
        exact ⟨j + 1, by simpa using Nat.succ_lt_succ hj,
          by rw [hk, show n0 + 1 + j = n0 + (j + 1) by omega]⟩
      · rw [show bucketsFrom owned uuids n0 (me :: rest)
              = (gidFor uuids n0, relocOf owned me)
                :: bucketsFrom owned uuids (n0 + 1) rest from by
            simp [bucketsFrom, List.enumFrom_cons, List.filterMap_cons, hrel]] at hk
        rw [List.map_cons, List.mem_cons] at hk
        rcases hk with hk | hk
        · exact ⟨0, by simp, by simpa using hk⟩
        · obtain ⟨j, hj, hk⟩ := ih (n0 + 1) k hk
          exact ⟨j + 1, by simpa using Nat.succ_lt_succ hj,
            by rw [hk, show n0 + 1 + j = n0 + (j + 1) by omega]⟩

/-- Looking up the i-th generated title in `bucketsFrom`. -/
theorem dget_bucketsFrom (owned : Dict String) (uuids : Nat → String)
    (n0 : Nat) (mes : List MutExGroup) (i : Nat) (me : MutExGroup)
    (hget : mes.get? i = some me)
    (hf3 : ∀ j j', j < j' → j' < mes.length →
        gidFor uuids (n0 + j) ≠ gidFor uuids (n0 + j')) :
    dget (bucketsFrom owned uuids n0 mes) (gidFor uuids (n0 + i))
      = if relocOf owned me = [] then Option.none
        else some (relocOf owned me) := by
  induction mes generalizing n0 i with
  | nil => simp at hget
  | cons me0 rest ih =>
      cases i with
      | zero =>
          rw [List.get?_cons_zero, Option.some.injEq] at hget
          subst hget
          by_cases hrel : relocOf owned me0 = []
          · rw [show bucketsFrom owned uuids n0 (me0 :: rest)
                  = bucketsFrom owned uuids (n0 + 1) rest from by
                simp [bucketsFrom, List.enumFrom_cons, List.filterMap_cons, hrel]]
            rw [if_pos hrel]
            apply dget_not_mem_keys
            intro hmem
            obtain ⟨j, hj, hk⟩ :=
              bucketsFrom_keys_sub owned uuids (n0 + 1) rest _ hmem
            rw [show n0 + 0 = n0 by omega] at hk
            exact hf3 0 (j + 1) (by omega) (by simpa using Nat.succ_lt_succ hj)
              (by rw [show n0 + 0 = n0 by omega,
                      show n0 + (j + 1) = n0 + 1 + j by omega]
                  exact hk)
          · rw [show bucketsFrom owned uuids n0 (me0 :: rest)
                  = (gidFor uuids n0, relocOf owned me0)
                    :: bucketsFrom owned uuids (n0 + 1) rest from by
                simp [bucketsFrom, List.enumFrom_cons, List.filterMap_cons, hrel]]
            rw [if_neg hrel]
            simp [dget, show n0 + 0 = n0 from by omega]
      | succ i' =>
          rw [List.get?_cons_succ] at hget
          have hrec := ih (n0 + 1) i' hget ?f3
          case f3 =>
            intro j j' hjj hj'
            have h := hf3 (j + 1) (j' + 1) (by omega)
              (by simpa using Nat.succ_lt_succ hj')
            rw [show n0 + (j + 1) = n0 + 1 + j by omega,
                show n0 + (j' + 1) = n0 + 1 + j' by omega] at h
            exact h
          rw [show n0 + (i' + 1) = n0 + 1 + i' by omega]
          by_cases hrel : relocOf owned me0 = []
          · rw [show bucketsFrom owned uuids n0 (me0 :: rest)
                  = bucketsFrom owned uuids (n0 + 1) rest from by
                simp [bucketsFrom, List.enumFrom_cons, List.filterMap_cons, hrel]]
            exact hrec
          · rw [show bucketsFrom owned uuids n0 (me0 :: rest)
                  = (gidFor uuids n0, relocOf owned me0)
                    :: bucketsFrom owned uuids (n0 + 1) rest from by
                simp [bucketsFrom, List.enumFrom_cons, List.filterMap_cons, hrel]]
            have hlt : i' < rest.length := by
              rcases List.get?_eq_some.mp hget with ⟨h, _⟩
              exact h
            have hne : gidFor uuids n0 ≠ gidFor uuids (n0 + 1 + i') := by
              have h := hf3 0 (i' + 1) (by omega)
                (by simpa using Nat.succ_lt_succ hlt)
              rw [show n0 + 0 = n0 by omega,
                  show n0 + (i' + 1) = n0 + 1 + i' by omega] at h
              exact h
            rw [show dget ((gidFor uuids n0, relocOf owned me0)
                  :: bucketsFrom owned uuids (n0 + 1) rest) (gidFor uuids (n0 + 1 + i'))
                = dget (bucketsFrom owned uuids (n0 + 1) rest)
                    (gidFor uuids (n0 + 1 + i')) from by
              simp [dget, hne]]
            exact hrec

/-- A mut-ex member whose dест is recorded as owned by `"options"` lies in the
(unique) `"options"` group's action list, which is duplicate-free. -/
theorem owned_options_mem (ags : List (String × List GAction))
    (hD : ((ags.map fun g => g.2.map (·.dest)).flatten).Nodup)
    {a : GAction} {g : String × List GAction} (hg : g ∈ ags) (ha : a ∈ g.2)
    (h : dget (writesFold (writesOf ags) []) a.dest = some "options") :
    ∃ opts, ("options", opts) ∈ ags ∧ a ∈ opts ∧ opts.Nodup := by
  have hkeys : ((writesOf ags).map Prod.fst).Nodup := by
    rw [writesOf_keys]
    exact hD
  have hmem1 : (a.dest, "options") ∈ writesOf ags := by
    rcases dget_writesFold_inv (writesOf ags) [] h with hmem | hinit
    · exact hmem
    · simp [dget] at hinit
  have hmem2 : (a.dest, g.1) ∈ writesOf ags :=
    mem_writesOf.mpr ⟨g, hg, rfl, a, ha, rfl⟩
  have heq : g.1 = "options" := mem_key_unique hmem2 hmem1 hkeys
  refine ⟨g.2, by rw [← heq]; exact hg, ha, ?_⟩
  have hdnd : (g.2.map (·.dest)).Nodup := by
    have := (List.nodup_flatten.mp hD).1
    exact this _ (List.mem_map.mpr ⟨g, hg, rfl⟩)
  exact hdnd.of_map

/-- Closed form of `ParserMap.mapParserGroups` under the structural invariants
argparse guarantees (unique group titles, globally unique destinations,
mutually exclusive members registered in some group, duplicate-free and
pairwise disjoint mutually exclusive groups) and freshness of the generated
uuid titles. -/
theorem mapParserGroups_spec (parser : GParser) (uuids : Nat → String)
    (hT : (parser.actionGroups.map Prod.fst).Nodup)
    (hD : ((parser.actionGroups.map fun g => g.2.map (·.dest)).flatten).Nodup)
    (hM : ∀ me ∈ parser.mutExGroups, ∀ a ∈ me.groupActions,
        ∃ g ∈ parser.actionGroups, a ∈ g.2)
    (hgd : ∀ me ∈ parser.mutExGroups, (me.groupActions.map (·.dest)).Nodup)
    (hpd : parser.mutExGroups.Pairwise fun me1 me2 =>
        ∀ a1 ∈ me1.groupActions, ∀ a2 ∈ me2.groupActions, a1.dest ≠ a2.dest)
    (hf1 : ∀ j, j < parser.mutExGroups.length →
        gidFor uuids j ∉ parser.actionGroups.map Prod.fst)
    (hf3 : ∀ j j', j < j' → j' < parser.mutExGroups.length →
        gidFor uuids j ≠ gidFor uuids j') :
    mapParserGroups parser uuids
      = .ok (mappedWith parser.actionGroups
               (relocatedBy (ownedDestsOf parser.actionGroups) parser.mutExGroups)
             ++ bucketsFrom (ownedDestsOf parser.actionGroups) uuids 0
                 parser.mutExGroups) := by
  have hreg : mapRegularGroups parser.actionGroups
      = (parser.actionGroups, writesFold (writesOf parser.actionGroups) []) :=
    mapRegularGroups_spec parser.actionGroups hT
  have howned : ownedDestsOf parser.actionGroups
      = writesFold (writesOf parser.actionGroups) [] := by
    rw [ownedDestsOf, hreg]
  have hmain := phase2_groups parser.actionGroups
      (writesFold (writesOf parser.actionGroups) []) hT parser.mutExGroups
      uuids 0 (fun _ => false) [] ?f1 ?f2 ?f3 ?mem hgd hpd
  case f1 =>
    intro j hj
    have h := hf1 j hj
    rw [show (0 : Nat) + j = j by omega]
    exact h
  case f2 =>
    intro j hj kv hkv
    simp at hkv
  case f3 =>
    intro j j' hjj hj'
    have h := hf3 j j' hjj hj'
    rw [show (0 : Nat) + j = j by omega, show (0 : Nat) + j' = j' by omega]
    exact h
  case mem =>
    intro me hme a ha hOwn
    obtain ⟨g, hg, hag⟩ := hM me hme a ha
    obtain ⟨opts, h1, h2, h3⟩ := owned_options_mem parser.actionGroups hD hg hag hOwn
    exact ⟨opts, h1, h2, h3, rfl⟩
  rw [mappedWith_false, List.append_nil, List.nil_append, ← howned] at hmain
  rw [mappedWith_congr
        (fun x => false || relocatedBy (ownedDestsOf parser.actionGroups)
          parser.mutExGroups x)
        (relocatedBy (ownedDestsOf parser.actionGroups) parser.mutExGroups)
        (fun x => by simp)] at hmain
  show (parser.mutExGroups.enum).foldlM
      (fun gs me => mapMutExGroup (mapRegularGroups parser.actionGroups).2 gs
        me.2 (uuids me.1))
      (mapRegularGroups parser.actionGroups).1 = _
  rw [hreg]
  rw [show parser.mutExGroups.enum = parser.mutExGroups.enumFrom 0 from rfl]
  show (parser.mutExGroups.enumFrom 0).foldlM
      (fun gs me => mapMutExGroup (writesFold (writesOf parser.actionGroups) [])
        gs me.2 (uuids me.1)) parser.actionGroups = _
  rw [← howned]
  exact hmain

theorem dget_mappedWith_of_ne {ags : List (String × List GAction)}
    {t : String} {acts : List GAction} (R : GAction → Bool)
    (hT : (ags.map Prod.fst).Nodup) (hmem : (t, acts) ∈ ags)
    (hne : t ≠ "options") : dget (mappedWith ags R) t = some acts := by
  have hm : (t, if t = "options" then acts.filter (fun a => !R a) else acts)
      ∈ mappedWith ags R := List.mem_map.mpr ⟨(t, acts), hmem, rfl⟩
  have h := dget_of_mem_nodup hm (by rw [mappedWith_keys]; exact hT)
  simpa [hne] using h

/-! ## Claim C3 -/

/-- C3: for every declared mutually exclusive group, `mapParserGroups`
relocates into its generated bucket exactly the member actions whose dest the
`ownedDests` record assigns to the default `"options"` bucket; members owned
by any other named group stay in their group (every non-`"options"` group map
entry is returned unchanged); and the generated bucket is present in the
output iff at least one member was relocated (in particular a one-member
bucket is preserved).  Hypotheses: argparse's structural invariants (unique
group titles, globally unique dests, members registered in a group,
duplicate-free and pairwise disjoint mutually exclusive groups) and freshness
of the generated uuid titles. -/
theorem c3_mapParserGroups_relocation (parser : GParser) (uuids : Nat → String)
    (hT : (parser.actionGroups.map Prod.fst).Nodup)
    (hD : ((parser.actionGroups.map fun g => g.2.map (·.dest)).flatten).Nodup)
    (hM : ∀ me ∈ parser.mutExGroups, ∀ a ∈ me.groupActions,
        ∃ g ∈ parser.actionGroups, a ∈ g.2)
    (hgd : ∀ me ∈ parser.mutExGroups, (me.groupActions.map (·.dest)).Nodup)
    (hpd : parser.mutExGroups.Pairwise fun me1 me2 =>
        ∀ a1 ∈ me1.groupActions, ∀ a2 ∈ me2.groupActions, a1.dest ≠ a2.dest)
    (hf1 : ∀ j, j < parser.mutExGroups.length →
        gidFor uuids j ∉ parser.actionGroups.map Prod.fst)
    (hf3 : ∀ j j', j < j' → j' < parser.mutExGroups.length →
        gidFor uuids j ≠ gidFor uuids j') :
    ∃ gm, mapParserGroups parser uuids = .ok gm
      ∧ (∀ i me, parser.mutExGroups.get? i = some me →
           (relocOf (ownedDestsOf parser.actionGroups) me ≠ [] →
              dget gm (gidFor uuids i)
                = some (relocOf (ownedDestsOf parser.actionGroups) me))
           ∧ (relocOf (ownedDestsOf parser.actionGroups) me = [] →
              dget gm (gidFor uuids i) = Option.none))
      ∧ (∀ t acts, (t, acts) ∈ parser.actionGroups → t ≠ "options" →
           dget gm t = some acts)
      ∧ (∀ opts, ("options", opts) ∈ parser.actionGroups →
           dget gm "options" = some (opts.filter fun a =>
             !relocatedBy (ownedDestsOf parser.actionGroups)
               parser.mutExGroups a)) := by
  refine ⟨_, mapParserGroups_spec parser uuids hT hD hM hgd hpd hf1 hf3,
    ?_, ?_, ?_⟩
  · intro i me hget
    have hlt : i < parser.mutExGroups.length := by
      rcases List.get?_eq_some.mp hget with ⟨h, _⟩
      exact h
    have hnone : dget (mappedWith parser.actionGroups
        (relocatedBy (ownedDestsOf parser.actionGroups) parser.mutExGroups))
        (gidFor uuids i) = Option.none := by
      apply dget_not_mem_keys
      rw [mappedWith_keys]
      exact hf1 i hlt
    have hb := dget_bucketsFrom (ownedDestsOf parser.actionGroups) uuids 0
      parser.mutExGroups i me hget (by
        intro j j' hjj hj'
        rw [show (0 : Nat) + j = j by omega, show (0 : Nat) + j' = j' by omega]
        exact hf3 j j' hjj hj')
    rw [show (0 : Nat) + i = i by omega] at hb
    constructor
    · intro hrel
      rw [dget_append_right _ hnone, hb, if_neg hrel]
    · intro hrel
      rw [dget_append_right _ hnone, hb, if_pos hrel]
  · intro t acts hmem hne
    exact dget_append_left _ (dget_mappedWith_of_ne _ hT hmem hne)
  · intro opts hopts
    exact dget_append_left _ (dget_mappedWith_options _ hT hopts)

/-- Witness for `c3_mapParserGroups_relocation` on the concrete `c2Parser`. -/
theorem c3_mapParserGroups_relocation_witness :
    ∃ gm, mapParserGroups c2Parser cexUuids = .ok gm
      ∧ (∀ i me, c2Parser.mutExGroups.get? i = some me →
           (relocOf (ownedDestsOf c2Parser.actionGroups) me ≠ [] →
              dget gm (gidFor cexUuids i)
                = some (relocOf (ownedDestsOf c2Parser.actionGroups) me))
           ∧ (relocOf (ownedDestsOf c2Parser.actionGroups) me = [] →
              dget gm (gidFor cexUuids i) = Option.none))
      ∧ (∀ t acts, (t, acts) ∈ c2Parser.actionGroups → t ≠ "options" →
           dget gm t = some acts)
      ∧ (∀ opts, ("options", opts) ∈ c2Parser.actionGroups →
           dget gm "options" = some (opts.filter fun a =>
             !relocatedBy (ownedDestsOf c2Parser.actionGroups)
               c2Parser.mutExGroups a)) :=
  c3_mapParserGroups_relocation c2Parser cexUuids (by decide) (by decide)
    (by decide) (by decide) (by decide)
    (by
      intro j hj
      have hj0 : j = 0 := by
        simpa [c2Parser] using hj
      subst hj0
      decide)
    (by
      intro j j' hjj hj'
      simp [c2Parser] at hj'
      omega)

/-! ## Claim C9 -/

/-- `dset` never shrinks a dictionary. -/
theorem length_le_dset {α : Type} (d : Dict α) (k : String) (v : α) :
    d.length ≤ (dset d k v).length := by
  induction d with
  | nil => simp [dset]
  | cons kv rest ih =>
      by_cases h : kv.1 = k <;> simp [dset, h]
      omega

/-- The deliniation fold never shrinks its accumulator. -/
theorem length_le_deliniate_fold (f : List GAction → Buckets)
    (gm : Dict (List GAction)) (acc : Dict Buckets) :
    acc.length ≤ (gm.foldl (fun out g => dset out g.1 (f g.2)) acc).length := by
  induction gm generalizing acc with
  | nil => simp
  | cons g rest ih =>
      calc acc.length ≤ (dset acc g.1 (f g.2)).length := length_le_dset _ _ _
        _ ≤ _ := ih _

/-- A nonempty group map deliniates to a nonempty result. -/
theorem deliniate_ne_nil (parser : GParser) (gm : Dict (List GAction))
    (h : gm ≠ []) : deliniateMappedActions parser gm ≠ [] := by
  unfold deliniateMappedActions
  cases gm with
  | nil => exact absurd rfl h
  | cons g rest =>
      intro hcontra
      have hlen := length_le_deliniate_fold
        (deliniateGroup (mutExDests parser)) rest (dset [] g.1 (deliniateGroup (mutExDests parser) g.2))
      rw [show ((g :: rest).foldl
            (fun out g => dset out g.1 (deliniateGroup (mutExDests parser) g.2)) [])
          = (rest.foldl (fun out g => dset out g.1 (deliniateGroup (mutExDests parser) g.2))
              (dset [] g.1 (deliniateGroup (mutExDests parser) g.2))) from rfl] at hcontra
      rw [hcontra] at hlen
      simp [dset] at hlen

/-- A nonempty group map makes `_buildParserInterface` raise `AttributeError`
at the very first group, before any widget is produced. -/
theorem buildParserInterface_error (gm : Dict Buckets) (h : gm ≠ []) :
    buildParserInterface gm = .error .attributeError := by
  cases gm with
  | nil => exact absurd rfl h
  | cons kv rest => rfl

/-- C9: for every parser with at least one action group (and the structural
invariants of `c3_mapParserGroups_relocation`), `ParserMap.__init__` builds a
`groupMap` whose entries are keyed by title strings, so the loop in
`Interface._buildParserInterface` iterates title STRINGS and the attribute
access `group.isUuidTitle` raises `AttributeError` before any widget is
produced. -/
theorem c9_buildParserInterface_fails (parser : GParser) (uuids : Nat → String)
    (hT : (parser.actionGroups.map Prod.fst).Nodup)
    (hD : ((parser.actionGroups.map fun g => g.2.map (·.dest)).flatten).Nodup)
    (hM : ∀ me ∈ parser.mutExGroups, ∀ a ∈ me.groupActions,
        ∃ g ∈ parser.actionGroups, a ∈ g.2)
    (hgd : ∀ me ∈ parser.mutExGroups, (me.groupActions.map (·.dest)).Nodup)
    (hpd : parser.mutExGroups.Pairwise fun me1 me2 =>
        ∀ a1 ∈ me1.groupActions, ∀ a2 ∈ me2.groupActions, a1.dest ≠ a2.dest)
    (hf1 : ∀ j, j < parser.mutExGroups.length →
        gidFor uuids j ∉ parser.actionGroups.map Prod.fst)
    (hf3 : ∀ j j', j < j' → j' < parser.mutExGroups.length →
        gidFor uuids j ≠ gidFor uuids j')
    (hne : parser.actionGroups ≠ []) :
    ∃ gm, parserMapGroupMap parser uuids = .ok gm ∧ gm ≠ []
      ∧ buildParserInterface gm = .error .attributeError := by
  have hmap := mapParserGroups_spec parser uuids hT hD hM hgd hpd hf1 hf3
  have hgm : parserMapGroupMap parser uuids
      = .ok (deliniateMappedActions parser
          (mappedWith parser.actionGroups
            (relocatedBy (ownedDestsOf parser.actionGroups) parser.mutExGroups)
           ++ bucketsFrom (ownedDestsOf parser.actionGroups) uuids 0
               parser.mutExGroups)) := by
    unfold parserMapGroupMap
    rw [hmap]
    rfl
  have hnonempty : (mappedWith parser.actionGroups
      (relocatedBy (ownedDestsOf parser.actionGroups) parser.mutExGroups)
      ++ bucketsFrom (ownedDestsOf parser.actionGroups) uuids 0
          parser.mutExGroups) ≠ [] := by
    intro hcontra
    rcases List.append_eq_nil.mp hcontra with ⟨h1, _⟩
    exact hne (List.map_eq_nil.mp h1)
  have hdni := deliniate_ne_nil parser _ hnonempty
  exact ⟨_, hgm, hdni, buildParserInterface_error _ hdni⟩

/-- Witness for `c9_buildParserInterface_fails` on the concrete `c2Parser`. -/
theorem c9_buildParserInterface_fails_witness :
    ∃ gm, parserMapGroupMap c2Parser cexUuids = .ok gm ∧ gm ≠ []
      ∧ buildParserInterface gm = .error .attributeError :=
  c9_buildParserInterface_fails c2Parser cexUuids (by decide) (by decide)
    (by decide) (by decide) (by decide)
    (by
      intro j hj
      have hj0 : j = 0 := by
        simpa [c2Parser] using hj
      subst hj0
      decide)
    (by
      intro j j' hjj hj'
      simp [c2Parser] at hj'
      omega)
    (by decide)

/-! ## The exclusion filter never excludes -/

theorem pyEqB_list_str (xs : List PyVal) (s : String) :
    pyEqB (.list xs) (.str s) = false := by
  rw [pyEqB]
  all_goals simp

theorem pyIn_list_str (xs : List PyVal) (excl : List String) :
    pyIn (.list xs) (excl.map .str) = false := by
  induction excl with
  | nil => rfl
  | cons e rest ih =>
      simp only [pyIn, List.map_cons, List.any_cons, pyEqB_list_str,
        Bool.false_or]
      simpa [pyIn] using ih

/-- With `keepHelp=False`, `excludeActionByDest` keeps every action: the
membership test compares the whole `option_strings` list against each exclude
string (never equal), and the help test is conjoined with `keepHelp`. -/
theorem excludeActionByDest_keepFalse (actions : List Act)
    (excl : List String) :
    excludeActionByDest actions false excl = actions := by
  unfold excludeActionByDest
  rw [List.filter_eq_self]
  intro a _
  simp [pyIn_list_str]

theorem onlyValidActions_id (g : String) (actions : List Act) :
    onlyValidActions g actions = actions :=
  excludeActionByDest_keepFalse actions [g]

/-! ## Membership in the valid-destination walk -/

theorem mem_validDestsActions_plain (cmds : Dict PyVal) (g : String)
    (acts : List Act) (d : String) (os : List String) (hh : Bool) (dv : PyVal)
    (h : Act.plain d os hh dv ∈ acts) : d ∈ validDestsActions cmds g acts := by
  induction acts with
  | nil => simp at h
  | cons a rest ih =>
      cases a with
      | plain d' os' h' dv' =>
          rw [validDestsActions_plain]
          rcases List.mem_cons.mp h with h | h
          · injection h with h1 h2 h3 h4
            subst h1
            exact List.mem_cons_self _ _
          · exact List.mem_cons_of_mem _ (ih h)
      | sub d' choices =>
          rw [validDestsActions_sub]
          rcases List.mem_cons.mp h with h | h
          · exact absurd h (by simp)
          · exact List.mem_append_right _ (ih h)

/-- The destination of every non-subparser action of `p` is always counted
valid (including the help action's and the gui flag's destinations). -/
theorem mem_validDestsParser_plain (cmds : Dict PyVal) (g : String)
    (p : ArgParser) (d : String) (os : List String) (hh : Bool) (dv : PyVal)
    (h : Act.plain d os hh dv ∈ p.actions) :
    d ∈ validDestsParser cmds g p := by
  cases p with
  | mk acts =>
      rw [validDestsParser_mk, onlyValidActions_id]
      exact mem_validDestsActions_plain cmds g acts d os hh dv h

theorem validDestsChoices_active (cmds : Dict PyVal) (g : String) (d : String)
    (v : PyVal) (choices : List (String × ArgParser)) (key : String)
    (subp : ArgParser) (hkey : (key, subp) ∈ choices)
    (hval : pyEqB v (.str key) = true) :
    d ∈ validDestsChoices cmds g d v choices
    ∧ ∀ x ∈ validDestsParser cmds g subp,
        x ∈ validDestsChoices cmds g d v choices := by
  induction choices with
  | nil => simp at hkey
  | cons kv rest ih =>
      obtain ⟨k', s'⟩ := kv
      rw [validDestsChoices_cons]
      rcases List.mem_cons.mp hkey with h | h
      · injection h with h1 h2
        subst h1
        subst h2
        rw [if_pos hval]
        constructor
        · exact List.mem_append_left _ (List.mem_cons_self _ _)
        · intro x hx
          exact List.mem_append_left _ (List.mem_cons_of_mem _ hx)
      · obtain ⟨h1, h2⟩ := ih h
        exact ⟨List.mem_append_right _ h1,
          fun x hx => List.mem_append_right _ (h2 x hx)⟩

theorem validDestsActions_sub_active (cmds : Dict PyVal) (g : String)
    (acts : List Act) (d : String) (choices : List (String × ArgParser))
    (key : String) (subp : ArgParser) (v : PyVal)
    (hmem : Act.sub d choices ∈ acts)
    (hget : dget cmds d = some v)
    (hkey : (key, subp) ∈ choices)
    (hval : pyEqB v (.str key) = true) :
    d ∈ validDestsActions cmds g acts
    ∧ ∀ x ∈ validDestsParser cmds g subp,
        x ∈ validDestsActions cmds g acts := by
  induction acts with
  | nil => simp at hmem
  | cons a rest ih =>
      cases a with
      | plain d' os' h' dv' =>
          rw [validDestsActions_plain]
          rcases List.mem_cons.mp hmem with h | h
          · exact absurd h (by simp)
          · obtain ⟨h1, h2⟩ := ih h
            exact ⟨List.mem_cons_of_mem _ h1,
              fun x hx => List.mem_cons_of_mem _ (h2 x hx)⟩
      | sub d' choices' =>
          rw [validDestsActions_sub]
          rcases List.mem_cons.mp hmem with h | h
          · injection h with h1 h2
            subst h1
            subst h2
            simp only [hget]
            obtain ⟨h3, h4⟩ := validDestsChoices_active cmds g d v choices
              key subp hkey hval
            exact ⟨List.mem_append_left _ h3,
              fun x hx => List.mem_append_left _ (h4 x hx)⟩
          · obtain ⟨h1, h2⟩ := ih h
            exact ⟨List.mem_append_right _ h1,
              fun x hx => List.mem_append_right _ (h2 x hx)⟩

/-- The destination of a subparsers action with an active selection, and every
valid destination of the selected nested parser, are counted valid. -/
theorem mem_validDestsParser_sub (cmds : Dict PyVal) (g : String)
    (p : ArgParser) (d : String) (choices : List (String × ArgParser))
    (key : String) (subp : ArgParser) (v : PyVal)
    (hmem : Act.sub d choices ∈ p.actions)
    (hget : dget cmds d = some v)
    (hkey : (key, subp) ∈ choices)
    (hval : pyEqB v (.str key) = true) :
    d ∈ validDestsParser cmds g p
    ∧ ∀ x ∈ validDestsParser cmds g subp, x ∈ validDestsParser cmds g p := by
  cases p with
  | mk acts =>
      rw [validDestsParser_mk, onlyValidActions_id]
      exact validDestsActions_sub_active cmds g acts d choices key subp v
        hmem hget hkey hval

/-! ## Snapshot domain -/

/-- One step of the list-flattening fold preserves which keys hold a value. -/
theorem getArgs_step_isSome (f : Dict PyVal) (kv : String × List String)
    (k : String) :
    (dget (match dget f kv.1 with
           | some (.dict d) => dset f kv.1 (.list (d.map (·.2)))
           | _ => f) k).isSome
      = (dget f k).isSome := by
  cases hf : dget f kv.1 with
  | none => rfl
  | some v =>
      cases v with
      | dict d =>
          by_cases hk : kv.1 = k
          · rw [← hk, dget_dset_self, hf]
            rfl
          · rw [dget_dset_ne _ _ _ _ hk]
      | none => rfl
      | bool b => rfl
      | int n => rfl
      | float fl => rfl
      | str s => rfl
      | list xs => rfl

theorem getArgs_fold_isSome (lists : Dict (List String)) (f : Dict PyVal)
    (k : String) :
    (dget (lists.foldl
      (fun (f : Dict PyVal) kv =>
        match dget f kv.1 with
        | some (.dict d) => dset f kv.1 (.list (d.map (·.2)))
        | _ => f) f) k).isSome
      = (dget f k).isSome := by
  induction lists generalizing f with
  | nil => rfl
  | cons kv rest ih =>
      rw [List.foldl_cons, ih]
      exact getArgs_step_isSome f kv k

/-- The snapshot holds a value for `k` iff `_commands` holds one and `k` is a
currently valid destination. -/
theorem dget_getArgs_isSome (st : AppState) (p : ArgParser) (g : String)
    (k : String) :
    (dget (getArgs st p g) k).isSome
      = ((dget st.commands k).isSome
          && (validDestsParser st.commands g p).contains k) := by
  simp only [getArgs]
  rw [getArgs_fold_isSome]
  rw [dget_filter_key]
  by_cases hk : (validDestsParser st.commands g p).contains k = true
  · rw [if_pos hk, hk, Bool.and_true]
  · rw [if_neg hk]
    rw [Bool.not_eq_true] at hk
    rw [hk, Bool.and_false]
    rfl

theorem dget_getArgs_of_not_valid (st : AppState) (p : ArgParser)
    (g : String) (k : String)
    (h : k ∉ validDestsParser st.commands g p) :
    dget (getArgs st p g) k = Option.none := by
  have hc : (validDestsParser st.commands g p).contains k = false := by
    by_contra hcc
    rw [Bool.not_eq_false] at hcc
    exact h (by simpa using hcc)
  have h2 := dget_getArgs_isSome st p g k
  rw [hc, Bool.and_false] at h2
  cases hd : dget (getArgs st p g) k with
  | none => rfl
  | some v => rw [hd] at h2; simp at h2

theorem dget_getArgs_of_valid (st : AppState) (p : ArgParser)
    (g : String) (k : String)
    (hmem : k ∈ validDestsParser st.commands g p)
    (hv : (dget st.commands k).isSome = true) :
    (dget (getArgs st p g) k).isSome = true := by
  have hc : (validDestsParser st.commands g p).contains k = true := by
    simpa using hmem
  rw [dget_getArgs_isSome, hc, Bool.and_true, hv]

/-- Reducing `Except` do-notation once the first step is known to succeed. -/
theorem exceptBind_ok {α β : Type} (a : α) (f : α → Except PyErr β) :
    (Except.ok a : Except PyErr α) >>= f = f a := rfl

/-! ## Claim C10 -/

/-- The parser the engine is pointed at in the closed scenarios: `argparse`'s
automatic help action (`-h`, `--help`, dest `help`, default the
`"==SUPPRESS=="` sentinel) plus the wrapper's own `--gui` switch (`store_true`,
default `False`). -/
def helpAct : Act := .plain "help" ["-h", "--help"] true (.str "==SUPPRESS==")

/-- The wrapper's `--gui` flag as an action (`store_true`, default `False`). -/
def guiAct : Act := .plain "gui" ["--gui"] false (.bool false)

/-- A parser holding exactly the help action and the gui flag. -/
def pHG : ArgParser := .mk [helpAct, guiAct]

/-- C10: `excludeActionByDest` with `keepHelp=False` is the identity on every
action list: the membership test `a.option_strings in excludes` compares the
whole `option_strings` list against individual flag strings (a `list` never
equals a `str` in Python), and the help branch is conjoined with `keepHelp`.
Consequently every non-subparser action's destination — including the help
action's and the gui flag's — is a valid destination, and any stored value for
it survives into the snapshot. -/
theorem c10_exclusion_filter_identity :
    (∀ (actions : List Act) (excludes : List String),
        excludeActionByDest actions false excludes = actions)
    ∧ (∀ (cmds : Dict PyVal) (g : String) (p : ArgParser) (d : String)
         (os : List String) (hh : Bool) (dv : PyVal),
        Act.plain d os hh dv ∈ p.actions → d ∈ validDestsParser cmds g p)
    ∧ (∀ (st : AppState) (p : ArgParser) (g : String) (k : String),
        k ∈ validDestsParser st.commands g p →
        (dget st.commands k).isSome = true →
        (dget (getArgs st p g) k).isSome = true) :=
  ⟨excludeActionByDest_keepFalse,
   fun cmds g p d os hh dv h => mem_validDestsParser_plain cmds g p d os hh dv h,
   fun st p g k hmem hv => dget_getArgs_of_valid st p g k hmem hv⟩

theorem c10_exclusion_filter_identity_witness :
    excludeActionByDest [helpAct, guiAct] false ["--gui"] = [helpAct, guiAct]
    ∧ "help" ∈ validDestsParser [] "--gui" pHG
    ∧ (dget (getArgs
        ⟨[("help", .str "==SUPPRESS=="), ("gui", PyVal.none)], []⟩
        pHG "--gui") "help").isSome = true :=
  ⟨c10_exclusion_filter_identity.1 [helpAct, guiAct] ["--gui"],
   c10_exclusion_filter_identity.2.1 [] "--gui" pHG "help" ["-h", "--help"]
     true (.str "==SUPPRESS==") (List.mem_cons_self _ _),
   c10_exclusion_filter_identity.2.2
     ⟨[("help", .str "==SUPPRESS=="), ("gui", PyVal.none)], []⟩ pHG "--gui"
     "help"
     (c10_exclusion_filter_identity.2.1
       [("help", .str "==SUPPRESS=="), ("gui", PyVal.none)] "--gui" pHG
       "help" ["-h", "--help"] true (.str "==SUPPRESS==")
       (List.mem_cons_self _ _))
     rfl⟩

/-! ## Claim C7 -/

/-- C7: a scalar (typed-input) change never raises — `inputTypedChanged`
totally rewrites the one entry with `_typedStringToValue(value, type)` and
leaves everything else alone; conversion respects the declared kind: `integer`
converts with `int()` and stores `None` on failure, `number` converts with
`float()` and stores `None` on failure, every other kind stores the raw string
unchanged. -/
theorem c7_typed_change (st : AppState) (dest ty raw : String) :
    (inputTypedChanged st dest ty raw).listsData = st.listsData
    ∧ dget (inputTypedChanged st dest ty raw).commands dest
        = some (typedStringToValue raw ty)
    ∧ (∀ k, k ≠ dest →
        dget (inputTypedChanged st dest ty raw).commands k
          = dget st.commands k)
    ∧ (ty = "integer" → ∀ n, pyIntOfString raw = some n →
        typedStringToValue raw ty = .int n)
    ∧ (ty = "integer" → pyIntOfString raw = Option.none →
        typedStringToValue raw ty = PyVal.none)
    ∧ (ty = "number" → ∀ f, pyFloatOfString raw = some f →
        typedStringToValue raw ty = .float f)
    ∧ (ty = "number" → pyFloatOfString raw = Option.none →
        typedStringToValue raw ty = PyVal.none)
    ∧ (ty ≠ "integer" → ty ≠ "number" →
        typedStringToValue raw ty = .str raw) := by
  refine ⟨rfl, dget_dset_self _ _ _, ?_, ?_, ?_, ?_, ?_, ?_⟩
  · intro k hk
    exact dget_dset_ne st.commands dest k _ (Ne.symm hk)
  · intro h n hn
    subst h
    simp [typedStringToValue, hn]
  · intro h hn
    subst h
    simp [typedStringToValue, hn]
  · intro h f hf
    subst h
    simp [typedStringToValue, hf]
  · intro h hf
    subst h
    simp [typedStringToValue, hf]
  · intro h1 h2
    unfold typedStringToValue
    rw [if_neg h1, if_neg h2]

theorem c7_typed_change_witness :
    dget (inputTypedChanged ⟨[], []⟩ "x" "integer" "abc").commands "x"
        = some (typedStringToValue "abc" "integer")
    ∧ typedStringToValue "abc" "integer" = PyVal.none
    ∧ typedStringToValue "12" "integer" = .int 12
    ∧ typedStringToValue "hi" "text" = .str "hi"
    ∧ dget (inputTypedChanged ⟨[("y", .int 3)], []⟩ "x" "integer" "abc").commands "y"
        = some (.int 3) :=
  ⟨(c7_typed_change ⟨[], []⟩ "x" "integer" "abc").2.1,
   (c7_typed_change ⟨[], []⟩ "x" "integer" "abc").2.2.2.2.1 rfl rfl,
   (c7_typed_change ⟨[], []⟩ "x" "integer" "12").2.2.2.1 rfl 12 (by decide),
   (c7_typed_change ⟨[], []⟩ "x" "text" "hi").2.2.2.2.2.2.2
     (by decide) (by decide),
   (c7_typed_change ⟨[("y", .int 3)], []⟩ "x" "integer" "abc").2.2.1 "y"
     (by decide)⟩

/-! ## Claim C5 -/

/-- C5 counterexample: removing the unknown item id `zzz` from list
destination `tags` (which currently holds the single item `a`) is not a no-op:
`self._commands[dest].pop(id)` is called without a default, so the unknown id
raises `KeyError` instead of being absorbed. -/
theorem c5_counterexample :
    listRemoveButtonPressed
      ⟨[("tags", .dict [("a", .str "1")])], [("tags", ["a"])]⟩ "tags_zzz"
      = .error .keyError := rfl

/-- C5 (amended): removing a list item whose id is not currently among the
destination's items raises `KeyError` (from `dict.pop` with no default) and
produces no new state, for every state whose remove-button name splits into a
destination holding an id-keyed dict that lacks the id. -/
theorem c5_amended (st : AppState) (name dest id : String) (d : Dict PyVal)
    (hsplit : pySplitUnder name = .ok (dest, id))
    (hdest : dget st.commands dest = some (.dict d))
    (hid : dget d id = Option.none) :
    listRemoveButtonPressed st name = .error .keyError := by
  have hdpop : dpop d id = Option.none := (dpop_eq_none_iff d id).mpr hid
  simp only [listRemoveButtonPressed, hsplit, exceptBind_ok, hdest, hdpop]

theorem c5_amended_witness :
    listRemoveButtonPressed
      ⟨[("opts", .dict [("i1", .int 4), ("i2", PyVal.none)])],
       [("opts", ["i1", "i2"])]⟩ "opts_nope"
      = .error .keyError :=
  c5_amended
    ⟨[("opts", .dict [("i1", .int 4), ("i2", PyVal.none)])],
     [("opts", ["i1", "i2"])]⟩
    "opts_nope" "opts" "nope" [("i1", .int 4), ("i2", PyVal.none)]
    rfl rfl rfl

/-! ## Claim C4 -/

/-- Subcommand `foo`, with one typed field whose destination is `x`. -/
def c4Foo : ArgParser := .mk [.plain "x" ["-x"] false PyVal.none]

/-- Sibling subcommand `bar`, which also owns a field with destination `x`. -/
def c4Bar : ArgParser := .mk [.plain "x" ["-x"] false PyVal.none]

/-- The root parser: one subparsers action (dest `cmd`) with the two sibling
subcommands. -/
def c4Root : ArgParser := .mk [.sub "cmd" [("foo", c4Foo), ("bar", c4Bar)]]

/-- The engine run of the claim's scenario: activate the `foo` tab, type `5`
into the integer field `x`, then activate the `bar` tab. -/
def c4Run : Except PyErr AppState := do
  let st1 ← tabActivated ⟨[("cmd", PyVal.none), ("x", PyVal.none)], []⟩
      "--content-tab-cmd_foo"
  tabActivated (inputTypedChanged st1 "x" "integer" "5") "--content-tab-cmd_bar"

/-- The state after the scenario: `bar` is the active subcommand and `x` still
holds `5`. -/
def c4St3 : AppState := ⟨[("cmd", .str "bar"), ("x", .int 5)], []⟩

/-- C4 counterexample: the scenario's state keeps `x = 5` (switching back to
`foo` preserves it — that half of the claim is true), but the snapshot taken
while `bar` is active STILL contains `x = 5`: `_getValidDests` collects
destination names, and `bar`'s own field is also named `x`, so the value typed
under the inactive `foo` scope leaks into `bar`'s snapshot. -/
theorem c4_counterexample :
    c4Run = .ok c4St3
    ∧ tabActivated c4St3 "--content-tab-cmd_foo"
        = .ok ⟨[("cmd", .str "foo"), ("x", .int 5)], []⟩
    ∧ dget (getArgs c4St3 c4Root "--gui") "x" = some (.int 5) := by
  refine ⟨rfl, rfl, ?_⟩
  have hvd : validDestsParser c4St3.commands "--gui" c4Root = ["cmd", "x"] := by
    simp [c4St3, c4Root, c4Foo, c4Bar, validDestsParser_mk,
      validDestsActions_nil, validDestsActions_plain, validDestsActions_sub,
      validDestsChoices_nil, validDestsChoices_cons, onlyValidActions,
      excludeActionByDest, pyIn, pyEqB, Act.optionStrings, Act.isHelp, dget]
  simp only [getArgs, hvd]
  rfl

/-- C4 (amended): activating a subcommand tab only rewrites the subparsers
destination (every other entry, in particular a previously typed field of the
old subcommand, is untouched); the snapshot excludes exactly the keys outside
`_getValidDests`, which walks the root's actions and, for each subparsers
action, the choices whose key equals the stored selection — so an inactive
scope's destination is excluded only as long as its NAME does not also occur
as a valid destination of the root or of an active scope. -/
theorem c4_tab_frame_and_exclusion :
    (∀ (st : AppState) (raw dest tab : String),
        pySplitUnder (pyRsplitDashLast raw) = .ok (dest, tab) →
        tabActivated st raw
          = .ok ⟨dset st.commands dest (.str tab), st.listsData⟩
        ∧ ∀ k, k ≠ dest →
            dget (dset st.commands dest (.str tab)) k = dget st.commands k)
    ∧ (∀ (st : AppState) (p : ArgParser) (g k : String),
        k ∉ validDestsParser st.commands g p →
        dget (getArgs st p g) k = Option.none)
    ∧ (∀ (cmds : Dict PyVal) (g : String) (p : ArgParser) (d : String)
         (choices : List (String × ArgParser)) (key : String)
         (subp : ArgParser) (v : PyVal),
        Act.sub d choices ∈ p.actions → dget cmds d = some v →
        (key, subp) ∈ choices → pyEqB v (.str key) = true →
        ∀ x ∈ validDestsParser cmds g subp,
          x ∈ validDestsParser cmds g p) := by
  refine ⟨?_, ?_, ?_⟩
  · intro st raw dest tab hsplit
    constructor
    · simp only [tabActivated, hsplit, exceptBind_ok]
    · intro k hk
      exact dget_dset_ne st.commands dest k _ (Ne.symm hk)
  · intro st p g k h
    exact dget_getArgs_of_not_valid st p g k h
  · intro cmds g p d choices key subp v hmem hget hkey hval
    exact (mem_validDestsParser_sub cmds g p d choices key subp v
      hmem hget hkey hval).2

theorem c4_tab_frame_and_exclusion_witness :
    (tabActivated c4St3 "--content-tab-cmd_bar"
        = .ok ⟨dset c4St3.commands "cmd" (.str "bar"), c4St3.listsData⟩
      ∧ ∀ k, k ≠ "cmd" →
          dget (dset c4St3.commands "cmd" (.str "bar")) k
            = dget c4St3.commands k)
    ∧ dget (getArgs c4St3 c4Root "--gui") "zzz" = Option.none
    ∧ ∀ x ∈ validDestsParser c4St3.commands "--gui" c4Bar,
        x ∈ validDestsParser c4St3.commands "--gui" c4Root :=
  ⟨c4_tab_frame_and_exclusion.1 c4St3 "--content-tab-cmd_bar" "cmd" "bar" rfl,
   c4_tab_frame_and_exclusion.2.1 c4St3 c4Root "--gui" "zzz"
     (by
       simp [c4St3, c4Root, c4Foo, c4Bar, validDestsParser_mk,
         validDestsActions_nil, validDestsActions_plain, validDestsActions_sub,
         validDestsChoices_nil, validDestsChoices_cons, onlyValidActions,
         excludeActionByDest, pyIn, pyEqB, Act.optionStrings, Act.isHelp,
         dget]),
   c4_tab_frame_and_exclusion.2.2 c4St3.commands "--gui" c4Root "cmd"
     [("foo", c4Foo), ("bar", c4Bar)] "bar" c4Bar (.str "bar")
     (List.mem_cons_self _ _) rfl
     (List.mem_cons_of_mem _ (List.mem_cons_self _ _)) (by simp [pyEqB])⟩

/-! ## Claim C6 -/

/-- `listAddButtonPressed` when the destination currently holds `None`
(the first item added to a freshly built list input). -/
theorem listAddButtonPressed_none (st : AppState) (L id : String)
    (items : List String)
    (hl : dget st.listsData L = some items)
    (hc : dget st.commands L = some PyVal.none) :
    listAddButtonPressed st L id
      = .ok ⟨dset st.commands L (.dict [(id, PyVal.none)]),
             dset st.listsData L (insertId items id)⟩ := by
  simp only [listAddButtonPressed, hl, buildListInputItem, hc, exceptBind_ok]

/-- `listAddButtonPressed` when the destination already holds an id-keyed
dict. -/
theorem listAddButtonPressed_dict (st : AppState) (L id : String)
    (items : List String) (d : Dict PyVal)
    (hl : dget st.listsData L = some items)
    (hc : dget st.commands L = some (.dict d)) :
    listAddButtonPressed st L id
      = .ok ⟨dset st.commands L (.dict (dset d id PyVal.none)),
             dset st.listsData L (insertId items id)⟩ := by
  simp only [listAddButtonPressed, hl, buildListInputItem, hc, exceptBind_ok]

/-- `inputTypedInListChanged` when the destination holds an id-keyed dict. -/
theorem inputTypedInListChanged_dict (st : AppState)
    (name dest id ty raw : String) (d : Dict PyVal)
    (hsplit : pySplitUnder name = .ok (dest, id))
    (hc : dget st.commands dest = some (.dict d)) :
    inputTypedInListChanged st name ty raw
      = .ok ⟨dset st.commands dest (.dict (dset d id (typedStringToValue raw ty))),
             st.listsData⟩ := by
  simp only [inputTypedInListChanged, hsplit, exceptBind_ok, hc]

/-- `listRemoveButtonPressed` when everything is present: the id is popped
from the id-keyed dict and removed from the `_listsData` id list. -/
theorem listRemoveButtonPressed_dict (st : AppState) (name dest id : String)
    (d d' : Dict PyVal) (ids ids' : List String)
    (hsplit : pySplitUnder name = .ok (dest, id))
    (hc : dget st.commands dest = some (.dict d))
    (hpop : dpop d id = some d')
    (hl : dget st.listsData dest = some ids)
    (hrem : pyListRemove ids id = some ids') :
    listRemoveButtonPressed st name
      = .ok ⟨dset st.commands dest (.dict d'), dset st.listsData dest ids'⟩ := by
  simp only [listRemoveButtonPressed, hsplit, exceptBind_ok, hc, hpop, hl, hrem]

/-- The claim's operation sequence on list destination `L`: add items `a`,
`b`, `c` (typing `ra`, `rb`, `rc` into them), remove `b`, then add `d` and
type `rd`. -/
def c6Run (L a b c d ra rb rc rd : String) : Except PyErr AppState := do
  let s1 ← listAddButtonPressed ⟨[(L, PyVal.none)], [(L, [])]⟩ L a
  let s2 ← inputTypedInListChanged s1 (L ++ "_" ++ a) "text" ra
  let s3 ← listAddButtonPressed s2 L b
  let s4 ← inputTypedInListChanged s3 (L ++ "_" ++ b) "text" rb
  let s5 ← listAddButtonPressed s4 L c
  let s6 ← inputTypedInListChanged s5 (L ++ "_" ++ c) "text" rc
  let s7 ← listRemoveButtonPressed s6 (L ++ "_" ++ b)
  let s8 ← listAddButtonPressed s7 L d
  inputTypedInListChanged s8 (L ++ "_" ++ d) "text" rd

/-- C6: for any distinct item ids `a`, `b`, `c`, `d` (whose widget names split
as `dest_id`), the scenario ends with the id-keyed dict holding `a`, `c`, `d`
in insertion order, and the snapshot flattens it to exactly
`[ra, rc, rd]` in that order. -/
theorem c6_list_ordering (L a b c d ra rb rc rd g : String)
    (hsa : pySplitUnder (L ++ "_" ++ a) = .ok (L, a))
    (hsb : pySplitUnder (L ++ "_" ++ b) = .ok (L, b))
    (hsc : pySplitUnder (L ++ "_" ++ c) = .ok (L, c))
    (hsd : pySplitUnder (L ++ "_" ++ d) = .ok (L, d))
    (hab : a ≠ b) (hac : a ≠ c) (had : a ≠ d)
    (hbc : b ≠ c) (hbd : b ≠ d) (hcd : c ≠ d) :
    c6Run L a b c d ra rb rc rd
      = .ok ⟨[(L, .dict [(a, .str ra), (c, .str rc), (d, .str rd)])],
             [(L, [a, c, d])]⟩
    ∧ dget (getArgs
        ⟨[(L, .dict [(a, .str ra), (c, .str rc), (d, .str rd)])],
         [(L, [a, c, d])]⟩
        (.mk [.plain L [] false PyVal.none]) g) L
      = some (.list [.str ra, .str rc, .str rd]) := by
  have e1 : listAddButtonPressed ⟨[(L, PyVal.none)], [(L, [])]⟩ L a
      = .ok ⟨[(L, .dict [(a, PyVal.none)])], [(L, [a])]⟩ := by
    rw [listAddButtonPressed_none _ L a [] (by simp [dget]) (by simp [dget])]
    simp [dset, insertId]
  have e2 : inputTypedInListChanged ⟨[(L, .dict [(a, PyVal.none)])], [(L, [a])]⟩
        (L ++ "_" ++ a) "text" ra
      = .ok ⟨[(L, .dict [(a, .str ra)])], [(L, [a])]⟩ := by
    rw [inputTypedInListChanged_dict _ _ L a "text" ra [(a, PyVal.none)] hsa
      (by simp [dget])]
    simp [dset, typedStringToValue]
  have e3 : listAddButtonPressed ⟨[(L, .dict [(a, .str ra)])], [(L, [a])]⟩ L b
      = .ok ⟨[(L, .dict [(a, .str ra), (b, PyVal.none)])], [(L, [a, b])]⟩ := by
    rw [listAddButtonPressed_dict _ L b [a] [(a, .str ra)]
      (by simp [dget]) (by simp [dget])]
    simp [dset, insertId, hab, Ne.symm hab]
  have e4 : inputTypedInListChanged
        ⟨[(L, .dict [(a, .str ra), (b, PyVal.none)])], [(L, [a, b])]⟩
        (L ++ "_" ++ b) "text" rb
      = .ok ⟨[(L, .dict [(a, .str ra), (b, .str rb)])], [(L, [a, b])]⟩ := by
    rw [inputTypedInListChanged_dict _ _ L b "text" rb
      [(a, .str ra), (b, PyVal.none)] hsb (by simp [dget])]
    simp [dset, typedStringToValue, hab, Ne.symm hab]
  have e5 : listAddButtonPressed
        ⟨[(L, .dict [(a, .str ra), (b, .str rb)])], [(L, [a, b])]⟩ L c
      = .ok ⟨[(L, .dict [(a, .str ra), (b, .str rb), (c, PyVal.none)])],
             [(L, [a, b, c])]⟩ := by
    rw [listAddButtonPressed_dict _ L c [a, b] [(a, .str ra), (b, .str rb)]
      (by simp [dget]) (by simp [dget])]
    simp [dset, insertId, hac, hbc, Ne.symm hac, Ne.symm hbc]
  have e6 : inputTypedInListChanged
        ⟨[(L, .dict [(a, .str ra), (b, .str rb), (c, PyVal.none)])],
         [(L, [a, b, c])]⟩
        (L ++ "_" ++ c) "text" rc
      = .ok ⟨[(L, .dict [(a, .str ra), (b, .str rb), (c, .str rc)])],
             [(L, [a, b, c])]⟩ := by
    rw [inputTypedInListChanged_dict _ _ L c "text" rc
      [(a, .str ra), (b, .str rb), (c, PyVal.none)] hsc (by simp [dget])]
    simp [dset, typedStringToValue, hac, hbc, Ne.symm hac, Ne.symm hbc]
  have e7 : listRemoveButtonPressed
        ⟨[(L, .dict [(a, .str ra), (b, .str rb), (c, .str rc)])],
         [(L, [a, b, c])]⟩ (L ++ "_" ++ b)
      = .ok ⟨[(L, .dict [(a, .str ra), (c, .str rc)])], [(L, [a, c])]⟩ := by
    rw [listRemoveButtonPressed_dict _ _ L b
      [(a, .str ra), (b, .str rb), (c, .str rc)] [(a, .str ra), (c, .str rc)]
      [a, b, c] [a, c] hsb (by simp [dget])
      (by simp [dpop, hab]) (by simp [dget]) (by simp [pyListRemove, hab])]
    simp [dset]
  have e8 : listAddButtonPressed
        ⟨[(L, .dict [(a, .str ra), (c, .str rc)])], [(L, [a, c])]⟩ L d
      = .ok ⟨[(L, .dict [(a, .str ra), (c, .str rc), (d, PyVal.none)])],
             [(L, [a, c, d])]⟩ := by
    rw [listAddButtonPressed_dict _ L d [a, c] [(a, .str ra), (c, .str rc)]
      (by simp [dget]) (by simp [dget])]
    simp [dset, insertId, had, hcd, Ne.symm had, Ne.symm hcd]
  have e9 : inputTypedInListChanged
        ⟨[(L, .dict [(a, .str ra), (c, .str rc), (d, PyVal.none)])],
         [(L, [a, c, d])]⟩
        (L ++ "_" ++ d) "text" rd
      = .ok ⟨[(L, .dict [(a, .str ra), (c, .str rc), (d, .str rd)])],
             [(L, [a, c, d])]⟩ := by
    rw [inputTypedInListChanged_dict _ _ L d "text" rd
      [(a, .str ra), (c, .str rc), (d, PyVal.none)] hsd (by simp [dget])]
    simp [dset, typedStringToValue, had, hcd, Ne.symm had, Ne.symm hcd]
  constructor
  · simp only [c6Run, e1, e2, e3, e4, e5, e6, e7, e8, e9, exceptBind_ok]
  · have hvd : validDestsParser
        [(L, PyVal.dict [(a, .str ra), (c, .str rc), (d, .str rd)])] g
        (.mk [.plain L [] false PyVal.none]) = [L] := by
      rw [validDestsParser_mk, onlyValidActions_id, validDestsActions_plain,
        validDestsActions_nil]
    simp only [getArgs, hvd]
    simp [dget, dset, List.filter]

theorem c6_list_ordering_witness :
    c6Run "tags" "ia" "ib" "ic" "id" "va" "vb" "vc" "vd"
      = .ok ⟨[("tags", .dict [("ia", .str "va"), ("ic", .str "vc"),
                              ("id", .str "vd")])],
             [("tags", ["ia", "ic", "id"])]⟩
    ∧ dget (getArgs
        ⟨[("tags", .dict [("ia", .str "va"), ("ic", .str "vc"),
                          ("id", .str "vd")])],
         [("tags", ["ia", "ic", "id"])]⟩
        (.mk [.plain "tags" [] false PyVal.none]) "--gui") "tags"
      = some (.list [.str "va", .str "vc", .str "vd"]) :=
  c6_list_ordering "tags" "ia" "ib" "ic" "id" "va" "vb" "vc" "vd" "--gui"
    rfl rfl rfl rfl
    (by decide) (by decide) (by decide) (by decide) (by decide) (by decide)

/-! ## Claim C1 -/

/-- Modelled from the spec: the external parser's mapping for the `pHG`
program on the empty command line (the literal text reproducing an empty
operation sequence).  `argparse` omits the help destination entirely (its
default is the `SUPPRESS` sentinel) and gives the `store_true` flag its
default `False`. -/
def externalArgparseResult : Dict PyVal := [("gui", PyVal.bool false)]

/-- The resolver-side view of the same program: `argparse`'s two automatic
groups, with the help action and the gui flag in `options`, and no mutually
exclusive groups. -/
def gHG : GParser :=
  ⟨[("positional arguments", []),
    ("options", [⟨"help", ["-h", "--help"], false⟩, ⟨"gui", ["--gui"], false⟩])],
   []⟩

/-- The engine state seeded by `_buildActionInputs` from `pHG`'s actions
(`self._commands[action.dest] = (action.default or None)`). -/
def c1Seed : AppState := buildActionInputsSeed ⟨[], []⟩ pHG.actions

/-- C1 fails in the code, in three independent ways, shown here on the
minimal program `pHG` and the empty operation sequence (reproducible as the
empty command line): (a) the interface for it can never be built —
`_buildParserInterface` raises `AttributeError` on the first group — so no
operation sequence can even run; (b) ignoring that, the seeded state keeps
argparse's `"==SUPPRESS=="` help sentinel as an ordinary value and collapses
the falsy `store_true` default `False` to `None` (`action.default or None`);
(c) hence the snapshot differs from the external parser's mapping
`{gui: False}`. -/
theorem c1_roundtrip_fails :
    (∃ gm, parserMapGroupMap gHG cexUuids = .ok gm
        ∧ buildParserInterface gm = .error .attributeError)
    ∧ c1Seed.commands = [("help", .str "==SUPPRESS=="), ("gui", PyVal.none)]
    ∧ getArgs c1Seed pHG "--gui"
        = [("help", .str "==SUPPRESS=="), ("gui", PyVal.none)]
    ∧ getArgs c1Seed pHG "--gui" ≠ externalArgparseResult := by
  have hvd : validDestsParser c1Seed.commands "--gui" pHG
      = ["help", "gui"] := by
    simp [c1Seed, buildActionInputsSeed, pHG, helpAct, guiAct, pyOrNone,
      pyTruthy, dset, validDestsParser_mk, validDestsActions_nil,
      validDestsActions_plain, validDestsActions_sub, validDestsChoices_nil,
      validDestsChoices_cons, onlyValidActions, excludeActionByDest, pyIn,
      pyEqB, Act.optionStrings, Act.isHelp, dget]
  have hga : getArgs c1Seed pHG "--gui"
      = [("help", .str "==SUPPRESS=="), ("gui", PyVal.none)] := by
    simp only [getArgs, hvd]
    rfl
  refine ⟨⟨_, rfl, rfl⟩, rfl, hga, ?_⟩
  rw [hga]
  intro h
  simpa [externalArgparseResult] using congrArg List.length h

end ArgUI
